import Mathlib

/-!
Verification of the spaCy NER microservice
(`spacy-service/app.py`, `spacy-service/entity_ruler.py`,
`spacy-service/performance_optimizer.py`) against its natural-language
specification.

The Python code is shallowly embedded: every definition below is translated
from a function of the source.  Floating-point confidence values and
timestamps are modelled as rationals (all arithmetic performed on them is
exact at the scales involved), Python dicts are modelled as
insertion-ordered association lists (Python 3.7+ dict semantics: updating an
existing key keeps its position, inserting a new key appends), and calls
into the external spaCy library (model inference, tokenisation, the
`Matcher`) are modelled as oracle data carried by an environment record.
-/

set_option autoImplicit false

namespace NERService

/-! ## Exact rational numbers

Python's float computations on confidences and timestamps are modelled by
exact rational arithmetic (all quantities involved are small enough that
the floats behave exactly).  Mathlib's `ℚ` normalizes through `Nat.gcd`,
which the kernel cannot evaluate, so an unnormalized fraction type with a
positive denominator is used instead: comparisons are by cross
multiplication, hence respect the rational *value*, while `=` is
representation equality (concrete results below are stated in the exact
representation the code computes). -/

/-- An exact fraction `num / den` with positive denominator. -/
structure Q where
  num : ℤ
  den : ℕ+
  deriving DecidableEq

instance (n : ℕ) : OfNat Q n := ⟨⟨n, 1⟩⟩

instance : NatCast Q := ⟨fun n => ⟨n, 1⟩⟩

instance : Repr Q := ⟨fun q _ => repr q.num ++ "/" ++ repr (q.den : ℕ)⟩

/-- Value order: `a/b < c/d ↔ a·d < c·b`. -/
def Q.lt (x y : Q) : Prop := x.num * (y.den : ℤ) < y.num * (x.den : ℤ)

/-- Value order: `a/b ≤ c/d ↔ a·d ≤ c·b`. -/
def Q.le (x y : Q) : Prop := x.num * (y.den : ℤ) ≤ y.num * (x.den : ℤ)

instance : LT Q := ⟨Q.lt⟩

instance : LE Q := ⟨Q.le⟩

instance (x y : Q) : Decidable (x < y) :=
  inferInstanceAs (Decidable (x.num * (y.den : ℤ) < y.num * (x.den : ℤ)))

instance (x y : Q) : Decidable (x ≤ y) :=
  inferInstanceAs (Decidable (x.num * (y.den : ℤ) ≤ y.num * (x.den : ℤ)))

instance : Add Q := ⟨fun x y => ⟨x.num * (y.den : ℤ) + y.num * (x.den : ℤ), x.den * y.den⟩⟩

instance : Sub Q := ⟨fun x y => ⟨x.num * (y.den : ℤ) - y.num * (x.den : ℤ), x.den * y.den⟩⟩

instance : Mul Q := ⟨fun x y => ⟨x.num * y.num, x.den * y.den⟩⟩

/-- Division by a positive natural (the only divisions the service
performs: by 10, by 1000, and by a nonempty list's length). -/
def Q.divNat (x : Q) (n : ℕ+) : Q := ⟨x.num, x.den * n⟩

/-- Python's `min(a, b)`: the second argument only replaces the first when
strictly smaller. -/
def Q.pymin (a b : Q) : Q := if b < a then b else a

/-- Python's `max(a, b)`: the second argument only replaces the first when
strictly larger. -/
def Q.pymax (a b : Q) : Q := if a < b then b else a

/-- Floor `⌊x⌋` (used for `round`): floor division of the numerator by the
denominator. -/
def Q.floor (x : Q) : ℤ := Int.fdiv x.num (x.den : ℤ)

/-- The positive value of a fraction `a/b`, for basic order reasoning. -/
theorem Q.den_posInt (x : Q) : (0 : ℤ) < (x.den : ℤ) := by
  exact_mod_cast x.den.pos

theorem Q.not_lt {x y : Q} : ¬x < y ↔ y ≤ x := by
  change ¬Q.lt x y ↔ Q.le y x
  unfold Q.lt Q.le
  exact Int.not_lt

theorem Q.le_refl (x : Q) : x ≤ x := by
  change Q.le x x
  unfold Q.le
  exact Int.le_refl _

theorem Q.le_trans {a b c : Q} (h1 : a ≤ b) (h2 : b ≤ c) : a ≤ c := by
  change Q.le a b at h1
  change Q.le b c at h2
  change Q.le a c
  unfold Q.le at h1 h2 ⊢
  have hb := b.den_posInt
  have h1' := mul_le_mul_of_nonneg_right h1 (le_of_lt c.den_posInt)
  have h2' := mul_le_mul_of_nonneg_right h2 (le_of_lt a.den_posInt)
  have : a.num * (c.den : ℤ) * (b.den : ℤ) ≤ c.num * (a.den : ℤ) * (b.den : ℤ) := by
    nlinarith
  exact le_of_mul_le_mul_right this hb

theorem Q.lt_of_le_of_lt {a b c : Q} (h1 : a ≤ b) (h2 : b < c) : a < c := by
  change Q.le a b at h1
  change Q.lt b c at h2
  change Q.lt a c
  unfold Q.le at h1
  unfold Q.lt at h2 ⊢
  have hb := b.den_posInt
  have h1' := mul_le_mul_of_nonneg_right h1 (le_of_lt c.den_posInt)
  have h2' := mul_lt_mul_of_pos_right h2 a.den_posInt
  have : a.num * (c.den : ℤ) * (b.den : ℤ) < c.num * (a.den : ℤ) * (b.den : ℤ) := by
    nlinarith
  exact lt_of_mul_lt_mul_right this (le_of_lt hb)

/-! ## Data model -/

/-- An entity produced by a spaCy model pass: `doc.ents` elements, carrying
`{text, label_, start_char, end_char}`.  Character offsets are Unicode
code-point offsets, as in spaCy. -/
structure RawEnt where
  text : String
  label : String
  start : Nat
  stop : Nat
  deriving DecidableEq, Repr

/-- An entity candidate as built by `app.py` (the dicts with keys
`text/label/start/end/confidence/source`).  The Python key `end` is called
`stop` here because `end` is a Lean keyword. -/
structure Candidate where
  text : String
  label : String
  start : Nat
  stop : Nat
  confidence : Q
  source : String
  deriving DecidableEq, Repr

/-- The response-level `Entity` pydantic model (no `source` field). -/
structure Entity where
  text : String
  label : String
  start : Nat
  stop : Nat
  confidence : Q
  deriving DecidableEq, Repr

/-- The `NERRequest` pydantic model. -/
structure NERRequest where
  text : String
  model : String
  min_confidence : Q
  labels : Option (List String)
  deriving DecidableEq, Repr

/-- The `NERResponse` pydantic model.  `processing_time_ms` is wall-clock
timing metadata and is not modelled. -/
structure NERResponse where
  entities : List Entity
  model_used : String
  text_length : Nat
  entity_count : Nat
  deriving DecidableEq, Repr

/-- The `BatchNERRequest` pydantic model. -/
structure BatchNERRequest where
  texts : List String
  model : String
  min_confidence : Q
  labels : Option (List String)
  deriving DecidableEq, Repr

/-- The `BatchNERResponse` pydantic model (again without wall-clock
timing). -/
structure BatchNERResponse where
  results : List NERResponse
  batch_size : Nat
  deriving DecidableEq, Repr

/-- The error outcomes of the request handlers: HTTP 400 for an unavailable
model, HTTP 500 for "no models" or a processing failure, and HTTP 422 (the
pydantic validation rejection) for invalid input. -/
inductive NerErr where
  | invalidInput
  | modelUnavailable
  | noModels
  | processingError
  deriving DecidableEq, Repr

deriving instance DecidableEq for Except

/-! ## String helpers (Python `str` methods restricted to the ASCII inputs
this service manipulates) -/

/-- Slice of a string by code-point offsets, `s[a:b]` in Python. -/
def charSlice (s : String) (a b : Nat) : String :=
  String.mk ((s.toList.drop a).take (b - a))

/-- Python `str.lower()` (ASCII). -/
def lowerStr (s : String) : String :=
  String.mk (s.toList.map Char.toLower)

/-- Python `str.strip()`: drop leading and trailing whitespace. -/
def pyStrip (s : String) : String :=
  String.mk (((s.toList.dropWhile Char.isWhitespace).reverse.dropWhile
    Char.isWhitespace).reverse)

/-- Lexicographic comparison of character lists by code point — the
ordering Python's `sorted` uses on (ASCII) strings. -/
def charListLe : List Char → List Char → Bool
  | [], _ => true
  | _ :: _, [] => false
  | a :: as, b :: bs =>
    if a.toNat < b.toNat then true
    else if b.toNat < a.toNat then false
    else charListLe as bs

/-- String comparison for `sorted(...)`. -/
def strLeB (a b : String) : Bool :=
  charListLe a.toList b.toList

/-- Insert into a `strLeB`-sorted list, keeping stability. -/
def insertSortedStr (a : String) : List String → List String
  | [] => [a]
  | b :: l => if strLeB a b then a :: b :: l else b :: insertSortedStr a l

/-- Python's stable `sorted` on strings (insertion sort). -/
def sortedStr : List String → List String
  | [] => []
  | a :: l => insertSortedStr a (sortedStr l)

/-- Python's `needle in hay` substring test. -/
def strContains (hay needle : String) : Bool :=
  (List.range (hay.toList.length + 1)).any fun i =>
    needle.toList.isPrefixOf (hay.toList.drop i)

/-- Python `str.isupper()`: at least one cased character and no lowercase cased
character (cased = alphabetic for the ASCII inputs used here). -/
def pyIsUpper (s : String) : Bool :=
  s.toList.any (fun c => c.isAlpha) && s.toList.all (fun c => !c.isAlpha || c.isUpper)

/-- Worker for `str.istitle()`: tracks whether the previous character was
cased and whether any cased character has been seen. -/
def pyIsTitleAux : List Char → Bool → Bool → Bool
  | [], _, seen => seen
  | c :: rest, prev, seen =>
    if c.isUpper then
      if prev then false else pyIsTitleAux rest true true
    else if c.isLower then
      if !prev then false else pyIsTitleAux rest true true
    else
      pyIsTitleAux rest false seen

/-- Python `str.istitle()` (ASCII): uppercase letters only follow uncased
characters, lowercase letters only follow cased ones, and at least one cased
character occurs. -/
def pyIsTitle (s : String) : Bool :=
  pyIsTitleAux s.toList false false

/-- An effectful map in the style of `list(nlp.pipe(...))`: apply `f` left to right and
stop at the first failure, as a Python loop over a generator does when an
element raises. -/
def mapExcept {α β ε : Type} (f : α → Except ε β) : List α → Except ε (List β)
  | [] => .ok []
  | a :: l =>
    match f a with
    | .error e => .error e
    | .ok b =>
      match mapExcept f l with
      | .error e => .error e
      | .ok bs => .ok (b :: bs)

/-! ## `entity_ruler.py` — `BrandProductEntityRuler` -/

/-- A spaCy token as used by the ruler: its surface text and its
`idx` (start character offset into the document text). -/
structure Token where
  text : String
  idx : Nat
  deriving DecidableEq, Repr

/-- A tokenised document: the original text together with the token stream
produced by the external tokenizer capability. -/
structure Doc where
  text : String
  toks : List Token
  deriving DecidableEq, Repr

/-- A `Matcher` result `(match_id, start, end)`: the interned match-id
string and the matched token window `[mstart, mend)` (`mend` exclusive, as
in spaCy). -/
structure RulerMatch where
  matchId : String
  mstart : Nat
  mend : Nat
  deriving DecidableEq, Repr

/-- The expression `doc.vocab.strings[match_id].split('_')[0]` — the label extracted from
the match-id string: everything before the first underscore. -/
def labelOf (matchId : String) : String :=
  String.mk (matchId.toList.takeWhile fun c => !(c = '_'))

/-- Span text `doc[s:e].text`: the slice of the original text from the first sliced
token's start offset to the last sliced token's end offset (empty for an
empty slice).  Python slicing clamps out-of-range bounds. -/
def spanText (d : Doc) (s e : Nat) : String :=
  let toks := (d.toks.drop s).take (e - s)
  match toks.head?, toks.getLast? with
  | some firstTok, some lastTok =>
      charSlice d.text firstTok.idx (lastTok.idx + lastTok.text.length)
  | _, _ => ""

/-- The method `BrandProductEntityRuler.calculate_confidence`: base 0.8, +0.1 for a
window longer than two tokens, +0.1 for title/upper case, +0.1 for a BRAND
containing a known brand word, capped at 1. -/
def calculate_confidence (d : Doc) (s e : Nat) (label : String) : Q :=
  let base : Q := ⟨8, 10⟩
  let base := if 2 < e - s then base + ⟨1, 10⟩ else base
  let entityText := spanText d s e
  let base := if pyIsTitle entityText || pyIsUpper entityText then base + ⟨1, 10⟩ else base
  let base :=
    if label = "BRAND"
        && ["gemini", "google", "microsoft", "apple"].any
            (fun b => strContains (lowerStr entityText) b) then
      base + ⟨1, 10⟩
    else base
  Q.pymin 1 base

/-- One iteration of the loop in `BrandProductEntityRuler.process_text`:
builds the candidate dict for one match.  The accesses `doc[start]` and
`doc[end]` raise `IndexError` when out of range (note that `end` is the
exclusive window bound, so `doc[end]` is the token *after* the match). -/
def processMatch (d : Doc) (m : RulerMatch) : Except Unit Candidate :=
  let entityText := spanText d m.mstart m.mend
  let label := labelOf m.matchId
  let confidence := calculate_confidence d m.mstart m.mend label
  match d.toks[m.mstart]?, d.toks[m.mend]? with
  | some ts, some te =>
      .ok { text := entityText, label := label, start := ts.idx, stop := te.idx
            confidence := confidence, source := "custom_ruler" }
  | _, _ => .error ()

/-- The method `BrandProductEntityRuler.process_text`, given the tokenised document and
the matcher's results (the call into the external spaCy `Matcher`): build
one candidate per match, propagating the first `IndexError`. -/
def process_text (d : Doc) (ms : List RulerMatch) : Except Unit (List Candidate) :=
  mapExcept (processMatch d) ms

/-! ## `app.py` — orchestrator environment

The external collaborators (loaded spaCy models, their inference output on
the request text, the custom rulers' tokenisation and matcher output, and
the escalation thresholds read from environment variables) are supplied as
an oracle record, fixed per request. -/

/-- The global service state and engine oracle seen by one `/ner` request.
`modelNames` lists the keys of the `models` dict in insertion order;
`loaded name` says whether `models[name]` is not `None`; `ents name` is
`doc.ents` for the request text under that model; `rulers name` is the
tokenised document and matcher output of `custom_rulers[name]` (or `none`
when the model has no custom ruler); `engineLabels name` is
`models[name].get_pipe("ner").labels`.  The three threshold fields are the
environment variables `NER_TRF_MIN_CHARS`, `NER_TRF_AVG_CONF` and
`NER_TRF_ESCALATE_SPAN_CONF` (defaults 500, 0.65, 0.5). -/
structure Env where
  modelNames : List String
  loaded : String → Bool
  ents : String → List RawEnt
  rulers : String → Option (Doc × List RulerMatch)
  engineLabels : String → List String
  trfMinChars : Nat
  trfAvgConf : Q
  trfSpanConf : Q

/-- The list `[k for k, v in models.items() if v is not None]`. -/
def availableModels (env : Env) : List String :=
  env.modelNames.filter env.loaded

/-- The test `models.get(name) is not None`. -/
def modelPresent (env : Env) (name : String) : Bool :=
  decide (name ∈ env.modelNames) && env.loaded name

/-- The helper `calculate_entity_confidence` in `extract_entities`:
`min(1.0, max(0.0, len(entity_text) / 10.0))`. -/
def calculate_entity_confidence (entityText : String) : Q :=
  Q.pymin 1 (Q.pymax 0 (Q.divNat (entityText.length : Q) 10))

/-- The label filter of `extract_entities`:
`if request.labels and entity.label_ not in request.labels: continue`.
Python truthiness: `None` and the empty list disable the filter. -/
def labelAllowed (labels : Option (List String)) (lab : String) : Bool :=
  match labels with
  | none => true
  | some ls => ls.isEmpty || ls.contains lab

/-- The standard-entity loop of `process_with_model`: confidence from
`calculate_entity_confidence`, dropped below `min_confidence` or outside the
label filter, with `source` set to the model name. -/
def engineCands (env : Env) (req : NERRequest) (name : String) : List Candidate :=
  (env.ents name).filterMap fun e =>
    let confidence := calculate_entity_confidence e.text
    if confidence < req.min_confidence then none
    else if !labelAllowed req.labels e.label then none
    else some { text := e.text, label := e.label, start := e.start, stop := e.stop
                confidence := confidence, source := name }

/-- The custom-ruler block of `process_with_model`: run
`custom_rulers[name].process_text`, filter by confidence and label; the
whole block is wrapped in `try/except`, so an exception (such as the
`IndexError` of `process_text`) yields zero custom candidates. -/
def rulerCands (env : Env) (req : NERRequest) (name : String) : List Candidate :=
  match env.rulers name with
  | none => []
  | some (d, ms) =>
    match process_text d ms with
    | .error _ => []
    | .ok cs =>
      cs.filter fun c =>
        !(c.confidence < req.min_confidence) && labelAllowed req.labels c.label

/-- The helper `process_with_model`: `[]` for a missing/unloaded model, otherwise the
model's entities followed by the surviving custom-ruler entities. -/
def process_with_model (env : Env) (req : NERRequest) (name : String) : List Candidate :=
  if modelPresent env name then
    engineCands env req name ++ rulerCands env req name
  else []

/-- The line `requested_model = (request.model or 'auto').strip()` (Python `or`
replaces a falsy — empty — string). -/
def normalizeModel (m : String) : String :=
  pyStrip (if m = "" then "auto" else m)

/-- Python's left-to-right `sum(...)` starting from 0. -/
def qsum (l : List Q) : Q :=
  l.foldl (fun a b => a + b) 0

/-- The line `avg_conf = (sum(...) / len(...)) if sm_entities else 1.0`. -/
def meanConf (l : List Candidate) : Q :=
  if l.isEmpty then 1 else Q.divNat (qsum (l.map Candidate.confidence)) l.length.toPNat'

/-- The escalation decision of the `auto` branch: `escalate` is set only
when the transformer model is available, and then fires on text length,
low average confidence of the (already filtered) fast-pass entities, or any
individual low-confidence fast-pass entity. -/
def escalationCond (env : Env) (req : NERRequest) : Bool :=
  let sm_entities := process_with_model env req "en_core_web_sm"
  decide ("en_core_web_trf" ∈ availableModels env)
    && (decide (env.trfMinChars ≤ req.text.length)
        || decide (meanConf sm_entities < env.trfAvgConf)
        || sm_entities.any fun e => decide (e.confidence < env.trfSpanConf))

/-- The span key used for deduplication:
`(entity['text'], entity['start'], entity['end'])`. -/
abbrev SpanKey := String × Nat × Nat

/-- Span key of a candidate. -/
def spanKey (c : Candidate) : SpanKey :=
  (c.text, c.start, c.stop)

/-- One step of the dedup loop:
`if key not in entity_map or entity['confidence'] > entity_map[key]['confidence']:
entity_map[key] = entity` — on an existing key the entry is replaced in
place (Python dicts keep the position), on a fresh key it is appended. -/
def upsertBest : List (SpanKey × Candidate) → Candidate → List (SpanKey × Candidate)
  | [], e => [(spanKey e, e)]
  | (k, a) :: rest, e =>
    if k = spanKey e then
      if a.confidence < e.confidence then (k, e) :: rest else (k, a) :: rest
    else
      (k, a) :: upsertBest rest e

/-- The dedup pass of `extract_entities`: fold the candidates through the
`entity_map` dict and return `list(entity_map.values())` in first-seen span
key order. -/
def dedup_entities (l : List Candidate) : List Candidate :=
  (l.foldl upsertBest []).map Prod.snd

/-- The `entity_map[key]` lookup on the association-list model of the dedup
dict. -/
def aFind : List (SpanKey × Candidate) → SpanKey → Option Candidate
  | [], _ => none
  | (k', a) :: rest, k => if k' = k then some a else aFind rest k

/-- Python `round(x, 3)` on the confidences this service produces.  (Python rounds
half to even; every confidence reachable here is an exact multiple of 1/10,
where any tie-breaking convention is the identity, so half-up is used.) -/
def round3 (q : Q) : Q :=
  Q.divNat ⟨Q.floor (q * 1000 + ⟨1, 2⟩), 1⟩ 1000

/-- Conversion of a deduplicated candidate into the response `Entity`. -/
def toEntity (c : Candidate) : Entity :=
  { text := c.text, label := c.label, start := c.start, stop := c.stop
    confidence := round3 c.confidence }

/-- The tail of `extract_entities`: dedup, build the `Entity` list and the
`NERResponse`. -/
def mkNERResponse (req : NERRequest) (ents : List Candidate) (used : String) : NERResponse :=
  let ded := dedup_entities ents
  { entities := ded.map toEntity, model_used := used
    text_length := req.text.length, entity_count := ded.length }

/-- The handler `extract_entities` (the `/ner` handler body, after pydantic
validation): model-selection check, `auto` escalation or explicit model,
dedup and response.  Note that the handler contains no reference to the
result cache (`performance_optimizer` is never imported by `app.py`). -/
def extract_entities (env : Env) (req : NERRequest) : Except NerErr NERResponse :=
  let requestedModel := normalizeModel req.model
  let avail := availableModels env
  if lowerStr requestedModel ≠ "auto" ∧ requestedModel ∉ avail then
    .error .modelUnavailable
  else if lowerStr requestedModel = "auto" then
    let use_sm := "en_core_web_sm" ∈ avail
    let use_trf := "en_core_web_trf" ∈ avail
    if use_sm then
      let sm_entities := process_with_model env req "en_core_web_sm"
      if escalationCond env req then
        .ok (mkNERResponse req
          (if use_trf then process_with_model env req "en_core_web_trf" else sm_entities)
          (if use_trf then "en_core_web_trf" else "en_core_web_sm"))
      else
        .ok (mkNERResponse req sm_entities "en_core_web_sm")
    else if use_trf then
      .ok (mkNERResponse req (process_with_model env req "en_core_web_trf") "en_core_web_trf")
    else
      .error .noModels
  else
    .ok (mkNERResponse req (process_with_model env req requestedModel) requestedModel)

/-! ## `app.py` — batch endpoint -/

/-- The engine oracle of one `/ner/batch` request: `pipeOutcome t` is the
outcome of producing the doc for text `t` inside `list(nlp.pipe(texts))` —
either its `doc.ents` or an engine failure raised while the generator is
consumed. -/
structure BatchEnv where
  modelNames : List String
  loaded : String → Bool
  pipeOutcome : String → Except Unit (List RawEnt)

/-- Batch confidence: `min(1.0, len(ent.text) / 10.0)` (the batch handler
has no `max(0.0, ...)` clamp). -/
def batchConf (entityText : String) : Q :=
  Q.pymin 1 (Q.divNat (entityText.length : Q) 10)

/-- The per-doc entity loop of `extract_entities_batch` (confidence is not
rounded in the batch handler). -/
def batchItem (req : BatchNERRequest) (ents : List RawEnt) (text : String) : NERResponse :=
  let entities := ents.filterMap fun e =>
    let confidence := batchConf e.text
    if confidence < req.min_confidence then none
    else if !labelAllowed req.labels e.label then none
    else some ({ text := e.text, label := e.label, start := e.start, stop := e.stop
                 confidence := confidence } : Entity)
  { entities := entities, model_used := req.model
    text_length := text.length, entity_count := entities.length }

/-- The handler `extract_entities_batch` (the `/ner/batch` handler body after pydantic
validation): model check, one `nlp.pipe` call over all texts inside a
single `try` block — an engine failure on any text aborts the whole batch
with HTTP 500 — and otherwise one result slot per text. -/
def extract_entities_batch (env : BatchEnv) (req : BatchNERRequest) :
    Except NerErr BatchNERResponse :=
  if ¬(req.model ∈ env.modelNames ∧ env.loaded req.model) then
    .error .modelUnavailable
  else
    match mapExcept env.pipeOutcome req.texts with
    | .error _ => .error .processingError
    | .ok docs =>
      .ok { results := (docs.zip req.texts).map fun p => batchItem req p.1 p.2
            batch_size := req.texts.length }

/-! ## `app.py` — pydantic validation and endpoint wrappers -/

/-- The `NERRequest` field constraints: `text` has `min_length=1,
max_length=100000` and `min_confidence` has `ge=0.0, le=1.0` (`model` and
`labels` carry no constraints). -/
def validNERRequest (r : NERRequest) : Prop :=
  1 ≤ r.text.length ∧ r.text.length ≤ 100000 ∧
    0 ≤ r.min_confidence ∧ r.min_confidence ≤ 1

instance (r : NERRequest) : Decidable (validNERRequest r) := by
  unfold validNERRequest; infer_instance

/-- The `BatchNERRequest` field constraints: only `texts` is constrained,
with `max_items=100` — the batch model declares no bounds on
`min_confidence` and none on the individual texts. -/
def validBatchNERRequest (r : BatchNERRequest) : Prop :=
  r.texts.length ≤ 100

instance (r : BatchNERRequest) : Decidable (validBatchNERRequest r) := by
  unfold validBatchNERRequest; infer_instance

/-- The `/ner` endpoint: pydantic rejects an invalid request before the
handler body runs. -/
def nerEndpoint (env : Env) (req : NERRequest) : Except NerErr NERResponse :=
  if validNERRequest req then extract_entities env req else .error .invalidInput

/-- The `/ner/batch` endpoint: pydantic rejects an oversized batch before
the handler body runs. -/
def batchEndpoint (env : BatchEnv) (req : BatchNERRequest) : Except NerErr BatchNERResponse :=
  if validBatchNERRequest req then extract_entities_batch env req else .error .invalidInput

/-! ## `app.py` — `/labels` endpoint -/

/-- The handler `get_entity_labels`: the union (a Python set, returned sorted) of
`model.get_pipe("ner").labels` over the loaded models.  Nothing from the
custom rulers is added. -/
def get_entity_labels (env : Env) : List String :=
  sortedStr (((availableModels env).flatMap env.engineLabels).dedup)

/-! ## `performance_optimizer.py` — `NERCache`

The two dicts `self.cache` (key → result) and `self.access_times`
(key → timestamp) always hold the same keys and are mutated in lockstep
(`__init__`, `get`'s expiry branch, `set`, `clear`), so they are modelled
as one insertion-ordered association list from key to
`(result, access time)`.  `time.time()` is passed in as `now`. -/

/-- The value stored for one fingerprint: the cached result dict and the
entry's `access_times` timestamp. -/
structure CacheEntry where
  result : NERResponse
  accessTime : Q
  deriving DecidableEq, Repr

/-- The `NERCache` object: its entries plus the `max_size` and `ttl`
configuration. -/
structure NERCache where
  entries : List (String × CacheEntry)
  maxSize : Nat
  ttl : Q
  deriving DecidableEq, Repr

/-- The constructor `NERCache(max_size, ttl)`. -/
def emptyCache (maxSize : Nat) (ttl : Q) : NERCache :=
  { entries := [], maxSize := maxSize, ttl := ttl }

/-- Dict lookup `d[k]` / `k in d` on the association list. -/
def lookupKey : List (String × CacheEntry) → String → Option CacheEntry
  | [], _ => none
  | (k', e) :: rest, k => if k' = k then some e else lookupKey rest k

/-- The update `self.access_times[key] = now` — update in place, keeping the key's
position. -/
def setTime : List (String × CacheEntry) → String → Q → List (String × CacheEntry)
  | [], _, _ => []
  | (k', e) :: rest, k, t =>
    if k' = k then (k', { e with accessTime := t }) :: rest
    else (k', e) :: setTime rest k t

/-- Dict deletion `del d[key]` — remove the (unique) entry for the key. -/
def eraseKey : List (String × CacheEntry) → String → List (String × CacheEntry)
  | [], _ => []
  | (k', e) :: rest, k => if k' = k then rest else (k', e) :: eraseKey rest k

/-- Dict assignment `d[key] = v` — replace in place if present, append if fresh. -/
def upsertEntry : List (String × CacheEntry) → String → CacheEntry → List (String × CacheEntry)
  | [], k, e => [(k, e)]
  | (k', e') :: rest, k, e =>
    if k' = k then (k, e) :: rest else (k', e') :: upsertEntry rest k e

/-- The expression `min(self.access_times.keys(), key=lambda k: self.access_times[k])`:
Python's `min` scans in insertion order and keeps the first element whose
value is strictly smaller than the best so far, i.e. the earliest entry
attaining the minimal access time.  `None` models the `ValueError` that
`min` raises on an empty dict. -/
def minAccessPair : List (String × CacheEntry) → Option (String × CacheEntry)
  | [] => none
  | p :: rest =>
    some (rest.foldl (fun best q => if q.2.accessTime < best.2.accessTime then q else best) p)

/-- The fold step inside Python's `min(..., key=...)`. -/
def minFold (best q : String × CacheEntry) : String × CacheEntry :=
  if q.2.accessTime < best.2.accessTime then q else best

/-- The method `NERCache._generate_key`: the md5 digest of
`f"{text}:{model}:{min_confidence}:{sorted(labels or [])}"`.  The digest is
modelled by a canonical injective encoding of the same tuple (the spec
treats fingerprint collisions as out of scope). -/
def generate_key (text model : String) (minConfidence : Q)
    (labels : Option (List String)) : String :=
  text ++ ":" ++ model ++ ":" ++ toString minConfidence.num ++ "/" ++
    toString (minConfidence.den : ℕ) ++ ":" ++
    String.intercalate "," (sortedStr (labels.getD []))

/-- The method `NERCache.get` at fingerprint level: a present key is a hit when
`now - access_times[key] < ttl` (touching the access time), and is expired
— removed from both dicts — otherwise; an absent key is a plain miss. -/
def NERCache.getKey (c : NERCache) (key : String) (now : Q) :
    Option NERResponse × NERCache :=
  match lookupKey c.entries key with
  | some e =>
    if now - e.accessTime < c.ttl then
      (some e.result, { c with entries := setTime c.entries key now })
    else
      (none, { c with entries := eraseKey c.entries key })
  | none => (none, c)

/-- The method `NERCache.get(text, model, min_confidence, labels)`. -/
def NERCache.get (c : NERCache) (text model : String) (minConfidence : Q)
    (labels : Option (List String)) (now : Q) : Option NERResponse × NERCache :=
  c.getKey (generate_key text model minConfidence labels) now

/-- The method `NERCache.set` at fingerprint level: when `len(self.cache) >= max_size`
the entry with the minimal access time is deleted first (`none` models the
`ValueError` of `min` over an empty dict, reachable only with
`max_size = 0`); then the new entry is stored. -/
def NERCache.setKey (c : NERCache) (key : String) (now : Q) (result : NERResponse) :
    Option NERCache :=
  if c.maxSize ≤ c.entries.length then
    match minAccessPair c.entries with
    | some oldest =>
        some { c with entries := upsertEntry (eraseKey c.entries oldest.1) key
                        { result := result, accessTime := now } }
    | none => none
  else
    some { c with entries := upsertEntry c.entries key
                    { result := result, accessTime := now } }

/-- The method `NERCache.set(text, model, min_confidence, labels, result)`. -/
def NERCache.set (c : NERCache) (text model : String) (minConfidence : Q)
    (labels : Option (List String)) (now : Q) (result : NERResponse) : Option NERCache :=
  c.setKey (generate_key text model minConfidence labels) now result

/-- The method `NERCache.clear`. -/
def NERCache.clearAll (c : NERCache) : NERCache :=
  { c with entries := [] }

/-- A sequence of `set` operations `(key, now, result)` applied left to
right. -/
def applyList : NERCache → List (String × Q × NERResponse) → Option NERCache
  | c, [] => some c
  | c, (k, t, r) :: rest =>
    match c.setKey k t r with
    | some c' => applyList c' rest
    | none => none

/-- The `/ner` handler with the result-cache state threaded through.
`app.py` never imports `performance_optimizer`, so the handler body
contains no cache read or write: the cache state passes through
untouched. -/
def extractEntitiesCached (env : Env) (req : NERRequest) (c : NERCache) :
    Except NerErr NERResponse × NERCache :=
  (extract_entities env req, c)

/-! ## Spec-side comparison definitions

These two definitions follow the specification's words (not the code) and
exist only to be compared against the embedded code. -/

/-- The fast pass's entity candidates *pre-dedup and pre-filter*, as §4.4 of
the spec demands for the escalation decision: every engine span with its
computed confidence plus every pattern candidate, before the
`min_confidence` and label filters are applied. -/
def fastPassRawCandidates (env : Env) (req : NERRequest) : List Candidate :=
  let _ := req
  (env.ents "en_core_web_sm").map (fun e =>
    { text := e.text, label := e.label, start := e.start, stop := e.stop
      confidence := calculate_entity_confidence e.text, source := "en_core_web_sm" })
  ++ (match env.rulers "en_core_web_sm" with
      | none => []
      | some (d, ms) =>
        match process_text d ms with
        | .error _ => []
        | .ok cs => cs)

/-- The escalation condition as the spec states it (§4.4): evaluated
against the *pre-filter* fast-pass candidates — text length at or above the
minimum character threshold, mean confidence below the average threshold
(empty set counting as mean 1), or any individual candidate below the
per-span threshold. -/
def specEscalationCondition (env : Env) (req : NERRequest) : Bool :=
  decide (env.trfMinChars ≤ req.text.length)
    || decide (meanConf (fastPassRawCandidates env req) < env.trfAvgConf)
    || (fastPassRawCandidates env req).any fun e => decide (e.confidence < env.trfSpanConf)

/-- The candidate the spec says the merger keeps for one span-key group
(§4.5): the candidate with the highest confidence, ties broken in favour of
the earlier-listed candidate — i.e. the first list element whose confidence
is greater than or equal to every confidence in the group. -/
def spec_best_candidate (l : List Candidate) : Option Candidate :=
  l.find? fun c => l.all fun c' => decide (c'.confidence ≤ c.confidence)

/-- Projection used to state which engine a response reports. -/
def modelUsedOf : Except NerErr NERResponse → Option String
  | .ok r => some r.model_used
  | .error _ => none

/-! ## Concrete fixtures used by the claim theorems -/

/-- A response value used as a generic cached/stored result. -/
def r0 : NERResponse :=
  { entities := [], model_used := "en_core_web_sm", text_length := 0, entity_count := 0 }

/-- A trace of `set` operations `(kᵢ, i, r0)` at consecutive integer times starting
from `i`: the trace that inserts distinct fingerprints one per tick. -/
def scenOps : Nat → List String → List (String × Q × NERResponse)
  | _, [] => []
  | i, k :: ks => (k, (i : Q), r0) :: scenOps (i + 1) ks

/-- The entries such a trace produces while no eviction happens. -/
def scenEntries : Nat → List String → List (String × CacheEntry)
  | _, [] => []
  | i, k :: ks => (k, { result := r0, accessTime := (i : Q) }) :: scenEntries (i + 1) ks

/-- Tokenised `"I love Apple pie"` (a pattern match not at the end of the
text). -/
def docX : Doc :=
  { text := "I love Apple pie", toks := [⟨"I", 0⟩, ⟨"love", 2⟩, ⟨"Apple", 7⟩, ⟨"pie", 13⟩] }

/-- The matcher hit of the `{"LOWER": "apple"}` BRAND pattern on `docX`:
token window `[2, 3)`. -/
def mX : RulerMatch := { matchId := "BRAND_apple", mstart := 2, mend := 3 }

/-- Tokenised `"I love Apple"`: the same pattern now matches a window
ending at the final token. -/
def docY : Doc :=
  { text := "I love Apple", toks := [⟨"I", 0⟩, ⟨"love", 2⟩, ⟨"Apple", 7⟩] }

/-- The matcher hit on `docY`, with exclusive end 3 = number of tokens. -/
def mY : RulerMatch := { matchId := "BRAND_apple", mstart := 2, mend := 3 }

/-- Environment for the escalation counterexample: both models loaded, the
fast pass finding a single low-confidence span, default thresholds. -/
def envC5 : Env :=
  { modelNames := ["en_core_web_sm", "en_core_web_trf"]
    loaded := fun _ => true
    ents := fun n => if n = "en_core_web_sm" then [⟨"abc", "ORG", 0, 3⟩] else []
    rulers := fun _ => none
    engineLabels := fun _ => []
    trfMinChars := 500, trfAvgConf := ⟨65, 100⟩, trfSpanConf := ⟨1, 2⟩ }

/-- A short `auto` request with the default 0.5 confidence threshold. -/
def reqC5 : NERRequest :=
  { text := "abc def", model := "auto", min_confidence := ⟨1, 2⟩, labels := none }

/-- Environment for the cache counterexample: only the fast model loaded,
returning one high-confidence span. -/
def envC1 : Env :=
  { modelNames := ["en_core_web_sm", "en_core_web_trf"]
    loaded := fun n => n = "en_core_web_sm"
    ents := fun n => if n = "en_core_web_sm" then [⟨"Microsoft", "ORG", 0, 9⟩] else []
    rulers := fun _ => none
    engineLabels := fun _ => []
    trfMinChars := 500, trfAvgConf := ⟨65, 100⟩, trfSpanConf := ⟨1, 2⟩ }

/-- The request whose fingerprint is pre-populated in the cache. -/
def reqC1 : NERRequest :=
  { text := "Microsoft ships", model := "en_core_web_sm", min_confidence := ⟨1, 2⟩, labels := none }

/-- A cached result clearly different from what the engine pass yields. -/
def cachedResp : NERResponse :=
  { entities := [⟨"Apple", "ORG", 0, 5, ⟨1, 2⟩⟩], model_used := "cached"
    text_length := 15, entity_count := 1 }

/-- The fingerprint of `reqC1`. -/
def fpC1 : String :=
  generate_key reqC1.text reqC1.model reqC1.min_confidence reqC1.labels

/-- A cache state holding a fresh entry for `reqC1`'s fingerprint. -/
def cacheC1 : NERCache :=
  { entries := [(fpC1, { result := cachedResp, accessTime := 0 })], maxSize := 1000, ttl := 3600 }

/-- Batch environment in which exactly the text `"bad"` triggers an engine
failure. -/
def envC6 : BatchEnv :=
  { modelNames := ["m"], loaded := fun _ => true
    pipeOutcome := fun t => if t = "bad" then .error () else .ok [⟨"EntityName", "ORG", 0, 10⟩] }

/-- A batch of three texts whose middle item fails. -/
def reqC6 : BatchNERRequest :=
  { texts := ["aaaa", "bad", "cccc"], model := "m", min_confidence := 0, labels := none }

/-- A trivial batch environment that succeeds on every text. -/
def envC8 : BatchEnv :=
  { modelNames := ["m"], loaded := fun _ => true, pipeOutcome := fun _ => .ok [] }

/-- A batch request whose confidence threshold 1.5 lies outside `[0, 1]`. -/
def reqC8 : BatchNERRequest :=
  { texts := ["hi"], model := "m", min_confidence := ⟨3, 2⟩, labels := none }

/-- Environment for the labels counterexample: one loaded engine knowing
only `ORG`, with the custom ruler (and its static BRAND/PRODUCT patterns)
present. -/
def envC9 : Env :=
  { modelNames := ["en_core_web_sm"], loaded := fun _ => true
    ents := fun _ => [], rulers := fun _ => some (docX, [mX])
    engineLabels := fun _ => ["ORG"]
    trfMinChars := 500, trfAvgConf := ⟨65, 100⟩, trfSpanConf := ⟨1, 2⟩ }

/-- Environment for the orchestrator-level IndexError witness: the fast
model loaded with one engine span, and its custom ruler matching a window
that ends at `docY`'s final token. -/
def envC10 : Env :=
  { modelNames := ["en_core_web_sm"], loaded := fun _ => true
    ents := fun _ => [⟨"EntityName", "ORG", 0, 10⟩]
    rulers := fun _ => some (docY, [mY])
    engineLabels := fun _ => []
    trfMinChars := 500, trfAvgConf := ⟨65, 100⟩, trfSpanConf := ⟨1, 2⟩ }

/-- An explicit-model request over `docY`'s text. -/
def reqC10 : NERRequest :=
  { text := "I love Apple", model := "en_core_web_sm", min_confidence := 0, labels := none }

/-! ## Helper lemmas -/

theorem Q.not_le {x y : Q} : ¬x ≤ y ↔ y < x := by
  change ¬Q.le x y ↔ Q.lt y x
  unfold Q.le Q.lt
  exact Int.not_le

theorem lookupKey_eq_none_of_not_mem {l : List (String × CacheEntry)} {k : String}
    (h : k ∉ l.map Prod.fst) : lookupKey l k = none := by
  induction l with
  | nil => rfl
  | cons p rest ih =>
    obtain ⟨k', e⟩ := p
    simp only [List.map_cons, List.mem_cons] at h
    push_neg at h
    simp only [lookupKey, if_neg (fun hk : k' = k => h.1 hk.symm)]
    exact ih h.2

theorem lookupKey_eraseKey_self {l : List (String × CacheEntry)} {k : String}
    (h : (l.map Prod.fst).Nodup) : lookupKey (eraseKey l k) k = none := by
  induction l with
  | nil => rfl
  | cons p rest ih =>
    simp only [List.map_cons, List.nodup_cons] at h
    by_cases hk : p.1 = k
    · have : eraseKey (p :: rest) k = rest := by
        cases p with
        | mk k' e => simp only [eraseKey, if_pos hk]
      rw [this]
      exact lookupKey_eq_none_of_not_mem (hk ▸ h.1)
    · have : eraseKey (p :: rest) k = p :: eraseKey rest k := by
        cases p with
        | mk k' e => simp only [eraseKey, if_neg hk]
      rw [this]
      cases p with
      | mk k' e =>
        simp only [lookupKey, if_neg hk]
        exact ih h.2

theorem mapExcept_error_of_mem {α β ε : Type} {f : α → Except ε β} {l : List α}
    (h : ∃ a ∈ l, ∃ e, f a = .error e) : ∃ e, mapExcept f l = .error e := by
  induction l with
  | nil => simp at h
  | cons a rest ih =>
    obtain ⟨a', ha', e', he'⟩ := h
    cases hfa : f a with
    | error e => exact ⟨e, by simp only [mapExcept, hfa]⟩
    | ok b =>
      rcases List.mem_cons.mp ha' with h1 | h1
      · rw [h1] at he'; rw [he'] at hfa; cases hfa
      · obtain ⟨e, he⟩ := ih ⟨a', h1, e', he'⟩
        exact ⟨e, by simp only [mapExcept, hfa, he]⟩

theorem mapExcept_ok_of_all {α β ε : Type} {f : α → Except ε β} {l : List α}
    (h : ∀ a ∈ l, ∃ b, f a = .ok b) :
    ∃ bs, mapExcept f l = .ok bs ∧ bs.length = l.length := by
  induction l with
  | nil => exact ⟨[], rfl, rfl⟩
  | cons a rest ih =>
    obtain ⟨b, hb⟩ := h a (List.mem_cons_self a rest)
    obtain ⟨bs, hbs, hlen⟩ := ih fun a' ha' => h a' (List.mem_cons_of_mem a ha')
    refine ⟨b :: bs, ?_, by simp [hlen]⟩
    simp only [mapExcept, hb, hbs]

theorem mem_insertSortedStr {a x : String} {l : List String} :
    x ∈ insertSortedStr a l ↔ x = a ∨ x ∈ l := by
  induction l with
  | nil => simp [insertSortedStr]
  | cons b rest ih =>
    by_cases hle : strLeB a b
    · simp [insertSortedStr, hle]
    · simp only [insertSortedStr, if_neg hle, List.mem_cons, ih]
      tauto

theorem mem_sortedStr {x : String} {l : List String} :
    x ∈ sortedStr l ↔ x ∈ l := by
  induction l with
  | nil => exact Iff.rfl
  | cons a rest ih =>
    simp only [sortedStr, mem_insertSortedStr, List.mem_cons, ih]

theorem Q.le_of_lt {x y : Q} (h : x < y) : x ≤ y := by
  change Q.lt x y at h
  change Q.le x y
  unfold Q.lt at h
  unfold Q.le
  exact Int.le_of_lt h

theorem minAccessPair_eq_foldl (p : String × CacheEntry) (rest : List (String × CacheEntry)) :
    minAccessPair (p :: rest) = some (rest.foldl minFold p) := rfl

theorem foldl_minFold_mem (rest : List (String × CacheEntry)) (p : String × CacheEntry) :
    rest.foldl minFold p = p ∨ rest.foldl minFold p ∈ rest := by
  induction rest generalizing p with
  | nil => exact Or.inl rfl
  | cons q rest ih =>
    rw [List.foldl_cons]
    rcases ih (minFold p q) with h | h
    · rw [h]
      unfold minFold
      split
      · exact Or.inr (List.mem_cons_self q rest)
      · exact Or.inl rfl
    · exact Or.inr (List.mem_cons_of_mem q h)

theorem minFold_le (p q : String × CacheEntry) :
    (minFold p q).2.accessTime ≤ p.2.accessTime ∧
      (minFold p q).2.accessTime ≤ q.2.accessTime := by
  unfold minFold
  by_cases h : q.2.accessTime < p.2.accessTime
  · rw [if_pos h]
    exact ⟨Q.le_of_lt h, Q.le_refl _⟩
  · rw [if_neg h]
    exact ⟨Q.le_refl _, Q.not_lt.mp h⟩

theorem foldl_minFold_le_init (rest : List (String × CacheEntry)) (p : String × CacheEntry) :
    (rest.foldl minFold p).2.accessTime ≤ p.2.accessTime := by
  induction rest generalizing p with
  | nil => exact Q.le_refl _
  | cons q rest ih =>
    rw [List.foldl_cons]
    exact Q.le_trans (ih (minFold p q)) (minFold_le p q).1

theorem foldl_minFold_le_mem (rest : List (String × CacheEntry)) (p x : String × CacheEntry)
    (hx : x ∈ rest) :
    (rest.foldl minFold p).2.accessTime ≤ x.2.accessTime := by
  induction rest generalizing p with
  | nil => cases hx
  | cons q rest ih =>
    rw [List.foldl_cons]
    rcases List.mem_cons.mp hx with rfl | hx
    · exact Q.le_trans (foldl_minFold_le_init rest (minFold p x)) (minFold_le p x).2
    · exact ih (minFold p q) hx

theorem minAccessPair_spec {l : List (String × CacheEntry)} {p : String × CacheEntry}
    (h : minAccessPair l = some p) :
    p ∈ l ∧ ∀ x ∈ l, p.2.accessTime ≤ x.2.accessTime := by
  cases l with
  | nil => cases h
  | cons q rest =>
    rw [minAccessPair_eq_foldl] at h
    have hp := Option.some.inj h
    subst hp
    constructor
    · rcases foldl_minFold_mem rest q with h1 | h1
      · rw [h1]
        exact List.mem_cons_self q rest
      · exact List.mem_cons_of_mem q h1
    · intro x hx
      rcases List.mem_cons.mp hx with rfl | hx
      · exact foldl_minFold_le_init rest x
      · exact foldl_minFold_le_mem rest q x hx

theorem minAccessPair_head (p : String × CacheEntry) (rest : List (String × CacheEntry))
    (h : ∀ x ∈ rest, ¬x.2.accessTime < p.2.accessTime) :
    minAccessPair (p :: rest) = some p := by
  rw [minAccessPair_eq_foldl]
  congr 1
  induction rest generalizing p with
  | nil => rfl
  | cons q rest ih =>
    have hq : minFold p q = p := by
      unfold minFold
      exact if_neg (h q (List.mem_cons_self q rest))
    rw [List.foldl_cons, hq]
    exact ih p fun x hx => h x (List.mem_cons_of_mem q hx)

theorem lookupKey_isSome_of_mem {l : List (String × CacheEntry)} {p : String × CacheEntry}
    (h : p ∈ l) : ∃ e, lookupKey l p.1 = some e := by
  induction l with
  | nil => cases h
  | cons q rest ih =>
    obtain ⟨k', e'⟩ := q
    by_cases hk : k' = p.1
    · exact ⟨e', by simp [lookupKey, hk]⟩
    · rcases List.mem_cons.mp h with rfl | h
      · exact absurd rfl hk
      · obtain ⟨e, he⟩ := ih h
        exact ⟨e, by simp [lookupKey, hk, he]⟩

theorem eraseKey_length {l : List (String × CacheEntry)} {k : String}
    (h : ∃ e, lookupKey l k = some e) : (eraseKey l k).length + 1 = l.length := by
  induction l with
  | nil => obtain ⟨e, he⟩ := h; cases he
  | cons q rest ih =>
    obtain ⟨k', e'⟩ := q
    by_cases hk : k' = k
    · simp [eraseKey, hk]
    · obtain ⟨e, he⟩ := h
      simp only [lookupKey, if_neg hk] at he
      simp only [eraseKey, if_neg hk, List.length_cons]
      rw [← ih ⟨e, he⟩]

theorem upsertEntry_length_le (l : List (String × CacheEntry)) (k : String) (e : CacheEntry) :
    (upsertEntry l k e).length ≤ l.length + 1 := by
  induction l with
  | nil => simp [upsertEntry]
  | cons q rest ih =>
    obtain ⟨k', e'⟩ := q
    by_cases hk : k' = k
    · simp [upsertEntry, hk]
    · simp only [upsertEntry, if_neg hk, List.length_cons]
      omega

theorem upsertEntry_fresh {l : List (String × CacheEntry)} {k : String} (e : CacheEntry)
    (h : lookupKey l k = none) : upsertEntry l k e = l ++ [(k, e)] := by
  induction l with
  | nil => rfl
  | cons q rest ih =>
    obtain ⟨k', e'⟩ := q
    by_cases hk : k' = k
    · simp only [lookupKey, if_pos hk] at h
      cases h
    · simp only [lookupKey, if_neg hk] at h
      simp only [upsertEntry, if_neg hk, List.cons_append, ih h]

theorem lookupKey_eraseKey_other {l : List (String × CacheEntry)} {k k' : String}
    (h : lookupKey l k = none) : lookupKey (eraseKey l k') k = none := by
  induction l with
  | nil => rfl
  | cons q rest ih =>
    obtain ⟨k0, e0⟩ := q
    by_cases hk0 : k0 = k
    · simp only [lookupKey, if_pos hk0] at h
      cases h
    · simp only [lookupKey, if_neg hk0] at h
      by_cases hk0' : k0 = k'
      · simp only [eraseKey, if_pos hk0']
        exact h
      · simp only [eraseKey, if_neg hk0', lookupKey, if_neg hk0]
        exact ih h

theorem setKey_succeeds_bounded {c : NERCache} (hm : 1 ≤ c.maxSize)
    (hlen : c.entries.length ≤ c.maxSize) (k : String) (t : Q) (r : NERResponse) :
    ∃ c', c.setKey k t r = some c' ∧ c'.entries.length ≤ c.maxSize ∧
      c'.maxSize = c.maxSize ∧ c'.ttl = c.ttl := by
  unfold NERCache.setKey
  by_cases hfull : c.maxSize ≤ c.entries.length
  · have hne : c.entries ≠ [] := by
      intro hnil
      rw [hnil] at hfull
      simp at hfull
      omega
    obtain ⟨p, rest, hcons⟩ := List.exists_cons_of_ne_nil hne
    have hmin : ∃ q, minAccessPair c.entries = some q := by
      rw [hcons, minAccessPair_eq_foldl]
      exact ⟨_, rfl⟩
    obtain ⟨q, hq⟩ := hmin
    rw [if_pos hfull, hq]
    refine ⟨_, rfl, ?_, rfl, rfl⟩
    have hqmem := (minAccessPair_spec hq).1
    have herase := eraseKey_length (lookupKey_isSome_of_mem hqmem)
    have hups := upsertEntry_length_le (eraseKey c.entries q.1) k { result := r, accessTime := t }
    dsimp only
    omega
  · rw [if_neg hfull]
    refine ⟨_, rfl, ?_, rfl, rfl⟩
    have hups := upsertEntry_length_le c.entries k { result := r, accessTime := t }
    dsimp only
    omega

theorem applyList_bounded {ops : List (String × Q × NERResponse)} {c c' : NERCache}
    (hm : 1 ≤ c.maxSize) (hlen : c.entries.length ≤ c.maxSize)
    (h : applyList c ops = some c') :
    c'.entries.length ≤ c.maxSize ∧ c'.maxSize = c.maxSize := by
  induction ops generalizing c with
  | nil =>
    cases h
    exact ⟨hlen, rfl⟩
  | cons op rest ih =>
    obtain ⟨k, t, r⟩ := op
    unfold applyList at h
    cases hset : c.setKey k t r with
    | none => rw [hset] at h; cases h
    | some c1 =>
      rw [hset] at h
      obtain ⟨c1', hc1', hlen1, hmax1, -⟩ := setKey_succeeds_bounded hm hlen k t r
      rw [hset] at hc1'
      cases hc1'
      have hres := ih (c := c1) (by omega) (by omega) h
      exact ⟨by omega, by omega⟩

theorem lookupKey_append_none {l1 l2 : List (String × CacheEntry)} {k : String}
    (h1 : lookupKey l1 k = none) (h2 : lookupKey l2 k = none) :
    lookupKey (l1 ++ l2) k = none := by
  induction l1 with
  | nil => exact h2
  | cons q rest ih =>
    obtain ⟨k', e'⟩ := q
    by_cases hk : k' = k
    · simp only [lookupKey, if_pos hk] at h1
      cases h1
    · simp only [lookupKey, if_neg hk] at h1
      simp only [List.cons_append, lookupKey, if_neg hk]
      exact ih h1

theorem scenOps_append (l1 l2 : List String) (i : Nat) :
    scenOps i (l1 ++ l2) = scenOps i l1 ++ scenOps (i + l1.length) l2 := by
  induction l1 generalizing i with
  | nil => simp [scenOps]
  | cons k rest ih =>
    have harith : i + 1 + rest.length = i + (rest.length + 1) := by omega
    simp only [List.cons_append, scenOps, List.append_eq, List.length_cons, harith, ih (i + 1)]

theorem scenEntries_length (ks : List String) (i : Nat) :
    (scenEntries i ks).length = ks.length := by
  induction ks generalizing i with
  | nil => rfl
  | cons k rest ih => simp [scenEntries, ih]

theorem scenEntries_keys (ks : List String) (i : Nat) :
    (scenEntries i ks).map Prod.fst = ks := by
  induction ks generalizing i with
  | nil => rfl
  | cons k rest ih => simp [scenEntries, ih]

theorem scenEntries_lookup_none {ks : List String} {k : String} (i : Nat)
    (h : k ∉ ks) : lookupKey (scenEntries i ks) k = none := by
  induction ks generalizing i with
  | nil => rfl
  | cons k' rest ih =>
    simp only [List.mem_cons] at h
    push_neg at h
    simp only [scenEntries, lookupKey, if_neg (fun hk : k' = k => h.1 hk.symm)]
    exact ih (i + 1) h.2

theorem scenEntries_time_ge (ks : List String) (i j : Nat) (hij : j ≤ i) :
    ∀ x ∈ scenEntries i ks, ¬x.2.accessTime < ((j : ℕ) : Q) := by
  induction ks generalizing i with
  | nil => intro x hx; cases hx
  | cons k rest ih =>
    intro x hx
    rcases List.mem_cons.mp hx with rfl | hx
    · show ¬Q.lt _ _
      unfold Q.lt
      show ¬((i : ℕ) : ℤ) * ((1 : ℕ+) : ℤ) < ((j : ℕ) : ℤ) * ((1 : ℕ+) : ℤ)
      push_cast
      omega
    · exact ih (i + 1) (by omega) x hx

theorem applyList_append (o1 o2 : List (String × Q × NERResponse)) (c : NERCache) :
    applyList c (o1 ++ o2) = (applyList c o1).bind fun c' => applyList c' o2 := by
  induction o1 generalizing c with
  | nil => rfl
  | cons op rest ih =>
    obtain ⟨k, t, r⟩ := op
    simp only [List.cons_append, applyList]
    cases c.setKey k t r with
    | none => rfl
    | some c1 => exact ih c1

theorem applyList_scenOps_fresh (ks : List String) : ∀ (i : Nat) (c : NERCache),
    ks.Nodup → (∀ k ∈ ks, lookupKey c.entries k = none) →
    c.entries.length + ks.length ≤ c.maxSize →
    applyList c (scenOps i ks) = some { c with entries := c.entries ++ scenEntries i ks } := by
  induction ks with
  | nil =>
    intro i c _ _ _
    show some c = _
    simp [scenEntries]
  | cons k rest ih =>
    intro i c hnodup hfresh hlen
    simp only [List.nodup_cons] at hnodup
    simp only [List.length_cons] at hlen
    have hset : c.setKey k ((i : ℕ) : Q) r0 =
        some { c with entries := c.entries ++ [(k, { result := r0, accessTime := ((i : ℕ) : Q) })] } := by
      unfold NERCache.setKey
      rw [if_neg (by omega), upsertEntry_fresh _ (hfresh k (List.mem_cons_self k rest))]
    show (match c.setKey k ((i : ℕ) : Q) r0 with
          | some c' => applyList c' (scenOps (i + 1) rest)
          | none => none) = _
    rw [hset]
    dsimp only
    rw [ih (i + 1) _ hnodup.2 ?fresh ?len]
    case fresh =>
      intro k' hk'
      have hkk : ¬k = k' := fun hk => hnodup.1 (hk ▸ hk')
      exact lookupKey_append_none (hfresh k' (List.mem_cons_of_mem k hk'))
        (by simp [lookupKey, hkk])
    case len =>
      simp only [List.length_append, List.length_cons, List.length_nil]
      omega
    simp [scenEntries, List.append_assoc]

theorem applyList_singleton {c c' : NERCache} {k : String} {t : Q} {r : NERResponse}
    (h : c.setKey k t r = some c') : applyList c [(k, t, r)] = some c' := by
  unfold applyList
  rw [h]
  rfl

/-- C3, eviction step performed by `set` at capacity on a fresh
fingerprint. -/
theorem setKey_evicts_lru {c : NERCache} {key : String} (t : Q) (r : NERResponse)
    (hm : 1 ≤ c.maxSize) (hclen : c.entries.length = c.maxSize)
    (hfresh : lookupKey c.entries key = none) :
    ∃ oldest, minAccessPair c.entries = some oldest ∧ oldest ∈ c.entries ∧
      (∀ x ∈ c.entries, oldest.2.accessTime ≤ x.2.accessTime) ∧
      c.setKey key t r =
        some { c with
               entries := eraseKey c.entries oldest.1 ++
                 [(key, { result := r, accessTime := t })] } := by
  have hne : c.entries ≠ [] := by
    intro hnil
    rw [hnil] at hclen
    simp at hclen
    omega
  obtain ⟨p, rest, hcons⟩ := List.exists_cons_of_ne_nil hne
  have hmin : ∃ q, minAccessPair c.entries = some q := by
    rw [hcons, minAccessPair_eq_foldl]
    exact ⟨_, rfl⟩
  obtain ⟨q, hq⟩ := hmin
  refine ⟨q, hq, (minAccessPair_spec hq).1, (minAccessPair_spec hq).2, ?_⟩
  unfold NERCache.setKey
  rw [if_pos (by omega), hq]
  dsimp only
  rw [upsertEntry_fresh _ (lookupKey_eraseKey_other hfresh)]

theorem extract_entities_ne_invalidInput (env : Env) (req : NERRequest) :
    extract_entities env req ≠ .error .invalidInput := by
  unfold extract_entities
  dsimp only
  repeat' split
  all_goals intro h
  all_goals cases h

theorem extract_entities_batch_ne_invalidInput (env : BatchEnv) (req : BatchNERRequest) :
    extract_entities_batch env req ≠ .error .invalidInput := by
  unfold extract_entities_batch
  repeat' split
  all_goals intro h
  all_goals cases h

theorem find?_append_of_none {α : Type} {p : α → Bool} {l1 : List α} (l2 : List α)
    (h : l1.find? p = none) : (l1 ++ l2).find? p = l2.find? p := by
  induction l1 with
  | nil => rfl
  | cons x l1 ih =>
    by_cases hx : p x
    · rw [List.find?_cons_of_pos _ hx] at h
      cases h
    · rw [List.find?_cons_of_neg _ hx] at h
      rw [List.cons_append, List.find?_cons_of_neg _ hx]
      exact ih h

theorem find?_append_of_some {α : Type} {p : α → Bool} {l1 : List α} {a : α} (l2 : List α)
    (h : l1.find? p = some a) : (l1 ++ l2).find? p = some a := by
  induction l1 with
  | nil => cases h
  | cons x l1 ih =>
    by_cases hx : p x
    · rw [List.find?_cons_of_pos _ hx] at h
      rw [List.cons_append, List.find?_cons_of_pos _ hx]
      exact h
    · rw [List.find?_cons_of_neg _ hx] at h
      rw [List.cons_append, List.find?_cons_of_neg _ hx]
      exact ih h

theorem find?_stronger {α : Type} {p p' : α → Bool} {l : List α} {a : α}
    (h : l.find? p = some a) (hpa : p' a = true)
    (himp : ∀ x, p' x = true → p x = true) : l.find? p' = some a := by
  induction l with
  | nil => cases h
  | cons x l ih =>
    by_cases hx : p x
    · rw [List.find?_cons_of_pos _ hx] at h
      cases h
      rw [List.find?_cons_of_pos _ hpa]
    · rw [List.find?_cons_of_neg _ hx] at h
      have hx' : ¬p' x = true := fun hc => hx (himp x hc)
      rw [List.find?_cons_of_neg _ (by simpa using hx')]
      exact ih h

theorem exists_max_confidence {l : List Candidate} (h : l ≠ []) :
    ∃ a ∈ l, ∀ b ∈ l, b.confidence ≤ a.confidence := by
  induction l with
  | nil => exact absurd rfl h
  | cons x l ih =>
    cases l with
    | nil =>
      refine ⟨x, List.mem_cons_self x [], ?_⟩
      intro b hb
      rcases List.mem_cons.mp hb with rfl | hb
      · exact Q.le_refl _
      · cases hb
    | cons y l' =>
      obtain ⟨a, ha, hmax⟩ := ih (List.cons_ne_nil y l')
      by_cases hxa : x.confidence ≤ a.confidence
      · refine ⟨a, List.mem_cons_of_mem x ha, ?_⟩
        intro b hb
        rcases List.mem_cons.mp hb with rfl | hb
        · exact hxa
        · exact hmax b hb
      · refine ⟨x, List.mem_cons_self x (y :: l'), ?_⟩
        intro b hb
        rcases List.mem_cons.mp hb with rfl | hb
        · exact Q.le_refl _
        · exact Q.le_trans (hmax b hb) (Q.le_of_lt (Q.not_le.mp hxa))

theorem spec_best_isSome {l : List Candidate} (h : l ≠ []) :
    ∃ a, spec_best_candidate l = some a := by
  obtain ⟨a, ha, hmax⟩ := exists_max_confidence h
  unfold spec_best_candidate
  have hp : (l.all fun c' => decide (c'.confidence ≤ a.confidence)) = true := by
    simp only [List.all_eq_true, decide_eq_true_eq]
    exact hmax
  cases hf : l.find? (fun c => l.all fun c' => decide (c'.confidence ≤ c.confidence)) with
  | some b => exact ⟨b, rfl⟩
  | none =>
    rw [List.find?_eq_none] at hf
    exact absurd hp (by simpa using hf a ha)

theorem spec_best_of_none {l : List Candidate} (h : spec_best_candidate l = none) :
    l = [] := by
  by_contra hne
  obtain ⟨a, ha⟩ := spec_best_isSome hne
  rw [h] at ha
  cases ha

theorem spec_best_singleton (e : Candidate) : spec_best_candidate [e] = some e := by
  unfold spec_best_candidate
  rw [List.find?_cons_of_pos]
  simp [Q.le_refl]

theorem spec_best_mem_le {l : List Candidate} {a : Candidate}
    (h : spec_best_candidate l = some a) : ∀ b ∈ l, b.confidence ≤ a.confidence := by
  have := List.find?_some h
  simpa only [List.all_eq_true, decide_eq_true_eq] using this

theorem spec_best_append_lt {F : List Candidate} {a e : Candidate}
    (h : spec_best_candidate F = some a) (hlt : a.confidence < e.confidence) :
    spec_best_candidate (F ++ [e]) = some e := by
  have hbound := spec_best_mem_le h
  unfold spec_best_candidate
  have hFnone : F.find? (fun c => (F ++ [e]).all fun c' =>
      decide (c'.confidence ≤ c.confidence)) = none := by
    rw [List.find?_eq_none]
    intro x hx hall
    simp only [List.all_eq_true, decide_eq_true_eq] at hall
    have hex : e.confidence ≤ x.confidence :=
      hall e (List.mem_append_right F (List.mem_cons_self e []))
    exact absurd hex (Q.not_le.mpr (Q.lt_of_le_of_lt (hbound x hx) hlt))
  rw [find?_append_of_none _ hFnone]
  rw [List.find?_cons_of_pos]
  simp only [List.all_eq_true, decide_eq_true_eq]
  intro b hb
  rcases List.mem_append.mp hb with hb | hb
  · exact Q.le_trans (hbound b hb) (Q.le_of_lt hlt)
  · rcases List.mem_cons.mp hb with rfl | hb
    · exact Q.le_refl _
    · cases hb

theorem spec_best_append_ge {F : List Candidate} {a e : Candidate}
    (h : spec_best_candidate F = some a) (hge : ¬a.confidence < e.confidence) :
    spec_best_candidate (F ++ [e]) = some a := by
  have hea : e.confidence ≤ a.confidence := Q.not_lt.mp hge
  have hbound := spec_best_mem_le h
  unfold spec_best_candidate at h ⊢
  have hFa : F.find? (fun c => (F ++ [e]).all fun c' =>
      decide (c'.confidence ≤ c.confidence)) = some a := by
    refine find?_stronger h ?_ ?_
    · simp only [List.all_eq_true, decide_eq_true_eq]
      intro b hb
      rcases List.mem_append.mp hb with hb | hb
      · exact hbound b hb
      · rcases List.mem_cons.mp hb with rfl | hb
        · exact hea
        · cases hb
    · intro x hall
      simp only [List.all_eq_true, decide_eq_true_eq] at hall ⊢
      intro b hb
      exact hall b (List.mem_append_left [e] hb)
  exact find?_append_of_some _ hFa

theorem aFind_none_iff {acc : List (SpanKey × Candidate)} {k : SpanKey} :
    aFind acc k = none ↔ k ∉ acc.map Prod.fst := by
  induction acc with
  | nil => simp [aFind]
  | cons p rest ih =>
    obtain ⟨k', a⟩ := p
    by_cases hk : k' = k
    · simp [aFind, hk]
    · simp only [aFind, if_neg hk, List.map_cons, List.mem_cons, ih]
      constructor
      · intro h hc
        rcases hc with hc | hc
        · exact hk hc.symm
        · exact h hc
      · intro h hc
        exact h (Or.inr hc)

theorem aFind_cons (k' : SpanKey) (a : Candidate) (rest : List (SpanKey × Candidate))
    (k : SpanKey) : aFind ((k', a) :: rest) k = if k' = k then some a else aFind rest k := rfl

theorem upsertBest_cons_replace {k' : SpanKey} {a e : Candidate}
    (rest : List (SpanKey × Candidate)) (hke : k' = spanKey e)
    (hcmp : a.confidence < e.confidence) :
    upsertBest ((k', a) :: rest) e = (k', e) :: rest := by
  simp only [upsertBest]
  rw [if_pos hke, if_pos hcmp]

theorem upsertBest_cons_keep {k' : SpanKey} {a e : Candidate}
    (rest : List (SpanKey × Candidate)) (hke : k' = spanKey e)
    (hcmp : ¬a.confidence < e.confidence) :
    upsertBest ((k', a) :: rest) e = (k', a) :: rest := by
  simp only [upsertBest]
  rw [if_pos hke, if_neg hcmp]

theorem upsertBest_cons_skip {k' : SpanKey} {a e : Candidate}
    (rest : List (SpanKey × Candidate)) (hke : ¬k' = spanKey e) :
    upsertBest ((k', a) :: rest) e = (k', a) :: upsertBest rest e := by
  simp only [upsertBest]
  rw [if_neg hke]

theorem upsertBest_find_other {acc : List (SpanKey × Candidate)} {e : Candidate} {k : SpanKey}
    (hk : k ≠ spanKey e) : aFind (upsertBest acc e) k = aFind acc k := by
  induction acc with
  | nil =>
    show (if spanKey e = k then some e else none) = none
    exact if_neg fun h => hk h.symm
  | cons p rest ih =>
    obtain ⟨k', a⟩ := p
    by_cases hke : k' = spanKey e
    · have hkk' : ¬k' = k := fun hh => hk (hh ▸ hke)
      by_cases hcmp : a.confidence < e.confidence
      · rw [upsertBest_cons_replace rest hke hcmp, aFind_cons, aFind_cons,
          if_neg hkk', if_neg hkk']
      · rw [upsertBest_cons_keep rest hke hcmp]
    · rw [upsertBest_cons_skip rest hke, aFind_cons, aFind_cons]
      by_cases hkk : k' = k
      · rw [if_pos hkk, if_pos hkk]
      · rw [if_neg hkk, if_neg hkk]
        exact ih

theorem upsertBest_find_fresh {acc : List (SpanKey × Candidate)} {e : Candidate}
    (h : aFind acc (spanKey e) = none) :
    aFind (upsertBest acc e) (spanKey e) = some e ∧
      (upsertBest acc e).map Prod.fst = acc.map Prod.fst ++ [spanKey e] := by
  induction acc with
  | nil => exact ⟨by simp [upsertBest, aFind], by simp [upsertBest]⟩
  | cons p rest ih =>
    obtain ⟨k', a⟩ := p
    rw [aFind_cons] at h
    by_cases hke : k' = spanKey e
    · rw [if_pos hke] at h
      cases h
    · rw [if_neg hke] at h
      obtain ⟨ih1, ih2⟩ := ih h
      constructor
      · rw [upsertBest_cons_skip rest hke, aFind_cons, if_neg hke]
        exact ih1
      · rw [upsertBest_cons_skip rest hke, List.map_cons, List.map_cons, ih2,
          List.cons_append]

theorem upsertBest_find_present {acc : List (SpanKey × Candidate)} {e a : Candidate}
    (h : aFind acc (spanKey e) = some a) :
    aFind (upsertBest acc e) (spanKey e) =
      some (if a.confidence < e.confidence then e else a) ∧
      (upsertBest acc e).map Prod.fst = acc.map Prod.fst := by
  induction acc with
  | nil => cases h
  | cons p rest ih =>
    obtain ⟨k', a'⟩ := p
    rw [aFind_cons] at h
    by_cases hke : k' = spanKey e
    · rw [if_pos hke] at h
      cases h
      by_cases hcmp : a.confidence < e.confidence
      · constructor
        · rw [upsertBest_cons_replace rest hke hcmp, aFind_cons, if_pos hke, if_pos hcmp]
        · rw [upsertBest_cons_replace rest hke hcmp, List.map_cons, List.map_cons]
      · constructor
        · rw [upsertBest_cons_keep rest hke hcmp, aFind_cons, if_pos hke, if_neg hcmp]
        · rw [upsertBest_cons_keep rest hke hcmp]
    · rw [if_neg hke] at h
      obtain ⟨ih1, ih2⟩ := ih h
      constructor
      · rw [upsertBest_cons_skip rest hke, aFind_cons, if_neg hke]
        exact ih1
      · rw [upsertBest_cons_skip rest hke, List.map_cons, List.map_cons, ih2]

theorem upsertBest_coherent {acc : List (SpanKey × Candidate)} {e : Candidate}
    (h : ∀ p ∈ acc, p.1 = spanKey p.2) : ∀ p ∈ upsertBest acc e, p.1 = spanKey p.2 := by
  induction acc with
  | nil =>
    intro p hp
    simp only [upsertBest, List.mem_singleton] at hp
    subst hp
    rfl
  | cons q rest ih =>
    obtain ⟨k', a⟩ := q
    intro p hp
    by_cases hke : k' = spanKey e
    · by_cases hcmp : a.confidence < e.confidence
      · simp only [upsertBest, if_pos hke, if_pos hcmp, List.mem_cons] at hp
        rcases hp with rfl | hp
        · exact hke
        · exact h p (List.mem_cons_of_mem _ hp)
      · simp only [upsertBest, if_pos hke, if_neg hcmp, List.mem_cons] at hp
        rcases hp with rfl | hp
        · exact h _ (List.mem_cons_self _ _)
        · exact h p (List.mem_cons_of_mem _ hp)
    · simp only [upsertBest, if_neg hke, List.mem_cons] at hp
      rcases hp with rfl | hp
      · exact h _ (List.mem_cons_self _ _)
      · exact ih (fun q hq => h q (List.mem_cons_of_mem _ hq)) p hp

theorem find_on_values {acc : List (SpanKey × Candidate)} {k : SpanKey}
    (h : ∀ p ∈ acc, p.1 = spanKey p.2) :
    (acc.map Prod.snd).find? (fun c => decide (spanKey c = k)) = aFind acc k := by
  induction acc with
  | nil => rfl
  | cons p rest ih =>
    obtain ⟨k', a⟩ := p
    have hk' : k' = spanKey a := h _ (List.mem_cons_self _ _)
    subst hk'
    simp only [List.map_cons]
    by_cases hk : spanKey a = k
    · rw [List.find?_cons_of_pos _ (by simpa using hk)]
      rw [show aFind ((spanKey a, a) :: rest) k = some a from by simp [aFind, hk]]
    · rw [List.find?_cons_of_neg _ (by simpa using hk)]
      rw [show aFind ((spanKey a, a) :: rest) k = aFind rest k from by simp [aFind, hk]]
      exact ih fun q hq => h q (List.mem_cons_of_mem _ hq)

theorem filter_singleton_self (e : Candidate) :
    List.filter (fun c => decide (spanKey c = spanKey e)) [e] = [e] := by
  simp

theorem filter_singleton_other {e : Candidate} {k : SpanKey} (hk : k ≠ spanKey e) :
    List.filter (fun c => decide (spanKey c = k)) [e] = [] := by
  have : ¬spanKey e = k := fun h => hk h.symm
  simp [this]

theorem upsertBest_invariant_step (processed : List Candidate)
    (acc : List (SpanKey × Candidate)) (e : Candidate)
    (h1 : (acc.map Prod.fst).Nodup)
    (h2 : ∀ p ∈ acc, p.1 = spanKey p.2)
    (h3 : ∀ k, aFind acc k =
      spec_best_candidate (processed.filter fun c => decide (spanKey c = k))) :
    ((upsertBest acc e).map Prod.fst).Nodup ∧
    (∀ p ∈ upsertBest acc e, p.1 = spanKey p.2) ∧
    (∀ k, aFind (upsertBest acc e) k =
      spec_best_candidate ((processed ++ [e]).filter fun c => decide (spanKey c = k))) := by
  cases hfind : aFind acc (spanKey e) with
  | none =>
    obtain ⟨hf1, hf2⟩ := upsertBest_find_fresh hfind
    refine ⟨?_, upsertBest_coherent h2, ?_⟩
    · rw [hf2]
      have hnotmem : spanKey e ∉ acc.map Prod.fst := aFind_none_iff.mp hfind
      simp [List.nodup_append, h1, hnotmem]
    · intro k
      by_cases hk : k = spanKey e
      · subst hk
        have hsb : spec_best_candidate
            (processed.filter fun c => decide (spanKey c = spanKey e)) = none := by
          rw [← h3 (spanKey e)]
          exact hfind
        rw [hf1, List.filter_append, spec_best_of_none hsb, List.nil_append,
          filter_singleton_self, spec_best_singleton]
      · rw [upsertBest_find_other hk, h3 k, List.filter_append,
          filter_singleton_other hk, List.append_nil]
  | some a =>
    obtain ⟨hf1, hf2⟩ := upsertBest_find_present hfind
    refine ⟨hf2 ▸ h1, upsertBest_coherent h2, ?_⟩
    intro k
    by_cases hk : k = spanKey e
    · subst hk
      have hsb : spec_best_candidate
          (processed.filter fun c => decide (spanKey c = spanKey e)) = some a := by
        rw [← h3 (spanKey e)]
        exact hfind
      rw [hf1, List.filter_append, filter_singleton_self]
      by_cases hcmp : a.confidence < e.confidence
      · rw [if_pos hcmp, spec_best_append_lt hsb hcmp]
      · rw [if_neg hcmp, spec_best_append_ge hsb hcmp]
    · rw [upsertBest_find_other hk, h3 k, List.filter_append,
        filter_singleton_other hk, List.append_nil]

theorem foldl_upsertBest_invariant (l : List Candidate) :
    ∀ (processed : List Candidate) (acc : List (SpanKey × Candidate)),
      (acc.map Prod.fst).Nodup →
      (∀ p ∈ acc, p.1 = spanKey p.2) →
      (∀ k, aFind acc k =
        spec_best_candidate (processed.filter fun c => decide (spanKey c = k))) →
      ((l.foldl upsertBest acc).map Prod.fst).Nodup ∧
      (∀ p ∈ l.foldl upsertBest acc, p.1 = spanKey p.2) ∧
      (∀ k, aFind (l.foldl upsertBest acc) k =
        spec_best_candidate ((processed ++ l).filter fun c => decide (spanKey c = k))) := by
  induction l with
  | nil =>
    intro processed acc h1 h2 h3
    refine ⟨h1, h2, ?_⟩
    simpa using h3
  | cons e l ih =>
    intro processed acc h1 h2 h3
    obtain ⟨s1, s2, s3⟩ := upsertBest_invariant_step processed acc e h1 h2 h3
    have hres := ih (processed ++ [e]) (upsertBest acc e) s1 s2 s3
    rw [List.foldl_cons]
    have harr : processed ++ e :: l = (processed ++ [e]) ++ l := by simp
    rw [harr]
    exact hres

/-! ## Claim C1 -/

/-- C1, counterexample: a request whose fingerprint is resident and fresh in
the result cache (`getKey` reports a hit with the cached result) is still
answered by running the engine — the handler returns the engine-derived
response, different from the cached one, and leaves the cache exactly as it
was, storing nothing. -/
theorem c1_counterexample :
    (cacheC1.getKey fpC1 1).1 = some cachedResp ∧
    extractEntitiesCached envC1 reqC1 cacheC1 =
      (.ok { entities := [⟨"Microsoft", "ORG", 0, 9, ⟨900, 1000⟩⟩]
             model_used := "en_core_web_sm", text_length := 15, entity_count := 1 },
       cacheC1) ∧
    ({ entities := [⟨"Microsoft", "ORG", 0, 9, ⟨900, 1000⟩⟩]
       model_used := "en_core_web_sm", text_length := 15, entity_count := 1 } : NERResponse)
      ≠ cachedResp := by
  refine ⟨by decide, by decide, by decide⟩

/-- C1, amended: the single-text orchestrator performs no cache lookup and
no cache store at all — its result is independent of the cache contents and
the cache state is returned unchanged.  (`optimize_ner_request` and
`cache_ner_result` in `performance_optimizer.py` implement the described
lookup and store, but `app.py` never imports that module.) -/
theorem c1_no_cache_interaction (env : Env) (req : NERRequest) (c c' : NERCache) :
    extractEntitiesCached env req c = (extract_entities env req, c) ∧
    (extractEntitiesCached env req c).1 = (extractEntitiesCached env req c').1 := by
  exact ⟨rfl, rfl⟩

/-- C1, witness for `c1_no_cache_interaction` at concrete inputs. -/
theorem c1_no_cache_interaction_witness :
    extractEntitiesCached envC1 reqC1 cacheC1 = (extract_entities envC1 reqC1, cacheC1) ∧
    (extractEntitiesCached envC1 reqC1 cacheC1).1 =
      (extractEntitiesCached envC1 reqC1 (emptyCache 1000 3600)).1 :=
  c1_no_cache_interaction envC1 reqC1 cacheC1 (emptyCache 1000 3600)

/-! ## Claim C2 -/

/-- C2, counterexample: with `ttl = 10`, an entry inserted at time 0 and
touched by a hit at time 9 is *still returned as a hit* at time 18, even
though `18 - 0 ≥ ttl` — the code checks the TTL against the last-accessed
time (refreshed by every hit), not against the insertion time. -/
theorem c2_counterexample :
    (emptyCache 1000 10).setKey "k" 0 r0 =
      some { entries := [("k", { result := r0, accessTime := 0 })], maxSize := 1000, ttl := 10 } ∧
    (({ entries := [("k", { result := r0, accessTime := 0 })], maxSize := 1000, ttl := 10 }
        : NERCache).getKey "k" 9).1 = some r0 ∧
    ((({ entries := [("k", { result := r0, accessTime := 0 })], maxSize := 1000, ttl := 10 }
        : NERCache).getKey "k" 9).2.getKey "k" 18).1 = some r0 ∧
    (10 : Q) ≤ (18 : Q) - 0 := by
  refine ⟨by decide, by decide, by decide, by decide⟩

/-- C2, amended: `get(fingerprint)` reports a miss exactly when the key is
absent or `now - last_accessed_at ≥ ttl` (the cache stores no insertion
time; every hit refreshes `last_accessed_at`), and a miss due to expiry
evicts the stale entry; consequently an entry *last accessed* `ttl` or more
ago is never returned as a hit, but an entry *inserted* more than `ttl` ago
can be, when hits have kept refreshing its access time. -/
theorem c2_ttl_is_sliding (c : NERCache) (key : String) (now : Q)
    (hnd : (c.entries.map Prod.fst).Nodup) :
    ((c.getKey key now).1 = none ↔
      lookupKey c.entries key = none ∨
        ∃ e, lookupKey c.entries key = some e ∧ c.ttl ≤ now - e.accessTime) ∧
    (∀ e, lookupKey c.entries key = some e → c.ttl ≤ now - e.accessTime →
      lookupKey ((c.getKey key now).2).entries key = none) := by
  unfold NERCache.getKey
  cases h : lookupKey c.entries key with
  | none =>
    refine ⟨by simp, ?_⟩
    intro e he
    cases he
  | some e =>
    by_cases hfresh : now - e.accessTime < c.ttl
    · refine ⟨?_, ?_⟩
      · simp only [if_pos hfresh]
        constructor
        · intro hcontra; cases hcontra
        · rintro (hnone | ⟨e', he', httl⟩)
          · cases hnone
          · cases he'
            exact absurd hfresh (Q.not_lt.mpr httl)
      · intro e' he' httl
        cases he'
        exact absurd hfresh (Q.not_lt.mpr httl)
    · refine ⟨?_, ?_⟩
      · simp only [if_neg hfresh]
        constructor
        · intro _
          exact Or.inr ⟨e, rfl, Q.not_lt.mp hfresh⟩
        · intro _; trivial
      · intro e' he' _
        cases he'
        simp only [if_neg hfresh]
        exact lookupKey_eraseKey_self hnd

/-- C2, witness for `c2_ttl_is_sliding`: a concrete expiry miss that evicts
the stale entry. -/
theorem c2_ttl_is_sliding_witness :
    lookupKey ((({ entries := [("k", { result := r0, accessTime := 0 })]
                   maxSize := 1000, ttl := 10 } : NERCache).getKey "k" 12).2).entries "k"
      = none :=
  (c2_ttl_is_sliding
      { entries := [("k", { result := r0, accessTime := 0 })], maxSize := 1000, ttl := 10 }
      "k" 12 (by decide)).2
    { result := r0, accessTime := 0 } (by decide) (by decide)

/-! ## Claim C3 -/

/-- C3: (i) starting from an empty cache with capacity `m ≥ 1`, any
sequence of `set` operations leaves at most `m` entries; (ii) a `set` at
capacity with a fresh fingerprint evicts exactly one entry — one with the
smallest last-accessed time — before appending the new one; (iii) inserting
`m + 1` distinct fingerprints at increasing times leaves exactly `m`
entries, the least-recently-accessed (first) fingerprint having been
evicted. -/
theorem c3_cache_bounded_lru (m : Nat) (ttl : Q) (hm : 1 ≤ m) :
    (∀ (ops : List (String × Q × NERResponse)) (c' : NERCache),
        applyList (emptyCache m ttl) ops = some c' → c'.entries.length ≤ m) ∧
    (∀ (c : NERCache) (key : String) (t : Q) (r : NERResponse),
        c.maxSize = m → c.entries.length = m → lookupKey c.entries key = none →
        ∃ oldest, minAccessPair c.entries = some oldest ∧ oldest ∈ c.entries ∧
          (∀ x ∈ c.entries, oldest.2.accessTime ≤ x.2.accessTime) ∧
          c.setKey key t r =
            some { c with
                   entries := eraseKey c.entries oldest.1 ++
                     [(key, { result := r, accessTime := t })] }) ∧
    (∀ ks : List String, ks.Nodup → ks.length = m + 1 →
        ∃ c', applyList (emptyCache m ttl) (scenOps 0 ks) = some c' ∧
          c'.entries.map Prod.fst = ks.drop 1 ∧ c'.entries.length = m) := by
  refine ⟨?_, ?_, ?_⟩
  · intro ops c' h
    exact (applyList_bounded (c := emptyCache m ttl) hm (by simp [emptyCache]) h).1
  · intro c key t r hcmax hclen hfresh
    exact setKey_evicts_lru t r (by omega) (by omega) hfresh
  · intro ks hnodup hkslen
    have hne : ks ≠ [] := by
      intro h
      rw [h] at hkslen
      simp at hkslen
    have hdecomp : ks.dropLast ++ [ks.getLast hne] = ks := List.dropLast_append_getLast hne
    have hdlen : ks.dropLast.length = m := by
      have := ks.length_dropLast
      omega
    have hdne : ks.dropLast ≠ [] := by
      intro h
      rw [h] at hdlen
      simp at hdlen
      omega
    obtain ⟨k0, front, hfront⟩ := List.exists_cons_of_ne_nil hdne
    have hnodup' : (ks.dropLast ++ [ks.getLast hne]).Nodup := by rw [hdecomp]; exact hnodup
    have hnodupd : ks.dropLast.Nodup := hnodup'.of_append_left
    have hdisj := List.disjoint_of_nodup_append hnodup'
    have hlast_not : ks.getLast hne ∉ ks.dropLast := by
      intro hmem
      exact hdisj hmem (List.mem_singleton_self _)
    have hfill := applyList_scenOps_fresh ks.dropLast 0 (emptyCache m ttl) hnodupd
      (fun k _ => rfl) (by simp [emptyCache]; omega)
    have hops : scenOps 0 ks = scenOps 0 ks.dropLast ++ scenOps m [ks.getLast hne] := by
      have hsplit := scenOps_append ks.dropLast [ks.getLast hne] 0
      rw [hdecomp] at hsplit
      rw [hsplit, Nat.zero_add, hdlen]
    have hfl : front.length + 1 = m := by
      rw [hfront] at hdlen
      simpa using hdlen
    have hlast_front : ks.getLast hne ∉ front := by
      intro hmem
      exact hlast_not (hfront ▸ List.mem_cons_of_mem k0 hmem)
    have hsetlast :
        NERCache.setKey
          { entries := [] ++ scenEntries 0 ks.dropLast, maxSize := m, ttl := ttl }
          (ks.getLast hne) ((m : ℕ) : Q) r0 =
        some { entries := scenEntries 1 front ++
                 [(ks.getLast hne, { result := r0, accessTime := ((m : ℕ) : Q) })]
               maxSize := m, ttl := ttl } := by
      unfold NERCache.setKey
      dsimp only
      rw [List.nil_append, hfront]
      rw [if_pos (by rw [scenEntries_length]; simp; omega)]
      rw [show scenEntries 0 (k0 :: front) =
            (k0, { result := r0, accessTime := ((0 : ℕ) : Q) }) :: scenEntries 1 front from rfl]
      rw [minAccessPair_head _ _ (scenEntries_time_ge front 1 0 (by omega))]
      dsimp only
      rw [show eraseKey
            ((k0, { result := r0, accessTime := ((0 : ℕ) : Q) }) :: scenEntries 1 front) k0 =
            scenEntries 1 front from by simp [eraseKey]]
      rw [upsertEntry_fresh _ (scenEntries_lookup_none 1 hlast_front)]
    refine ⟨{ entries := scenEntries 1 front ++
                [(ks.getLast hne, { result := r0, accessTime := ((m : ℕ) : Q) })]
              maxSize := m, ttl := ttl }, ?_, ?_, ?_⟩
    · rw [hops, applyList_append, hfill]
      show applyList
          { entries := [] ++ scenEntries 0 ks.dropLast, maxSize := m, ttl := ttl }
          (scenOps m [ks.getLast hne]) = _
      rw [show scenOps m [ks.getLast hne] =
            [(ks.getLast hne, ((m : ℕ) : Q), r0)] from rfl]
      exact applyList_singleton hsetlast
    · show (scenEntries 1 front ++
          [(ks.getLast hne,
            ({ result := r0, accessTime := ((m : ℕ) : Q) } : CacheEntry))]).map Prod.fst =
        ks.drop 1
      have hdrop : ks.drop 1 = front ++ [ks.getLast hne] := by
        conv_lhs => rw [← hdecomp, hfront]
        rfl
      rw [hdrop, List.map_append, scenEntries_keys]
      rfl
    · show (scenEntries 1 front ++
          [(ks.getLast hne,
            ({ result := r0, accessTime := ((m : ℕ) : Q) } : CacheEntry))]).length = m
      rw [List.length_append, scenEntries_length]
      simpa using hfl

/-- C3, witness for `c3_cache_bounded_lru`: capacity 2, three distinct
fingerprints inserted at times 0, 1, 2 — the first one is evicted. -/
theorem c3_cache_bounded_lru_witness :
    ∃ c', applyList (emptyCache 2 3600) (scenOps 0 ["a", "b", "c"]) = some c' ∧
      c'.entries.map Prod.fst = ["a", "b", "c"].drop 1 ∧ c'.entries.length = 2 :=
  (c3_cache_bounded_lru 2 3600 (by decide)).2.2 ["a", "b", "c"] (by decide) (by decide)

/-! ## Claim C4 -/

/-- C4: the dedup pass of `extract_entities` keeps at most one candidate
per span key `(text, start, end)`, and for each span key present it keeps
exactly the candidate the spec describes: the one with the highest
confidence, ties broken in favour of the earlier-listed candidate —
formally, the first candidate of the group whose confidence is greater than
or equal to every confidence in the group.  (Output order is the
first-seen order of span keys, so the result is deterministic in the
input.) -/
theorem c4_merge_keeps_best (l : List Candidate) :
    ((dedup_entities l).map spanKey).Nodup ∧
    ∀ k : SpanKey, (dedup_entities l).find? (fun c => decide (spanKey c = k)) =
      spec_best_candidate (l.filter fun c => decide (spanKey c = k)) := by
  obtain ⟨h1, h2, h3⟩ := foldl_upsertBest_invariant l [] []
    (by simp) (by simp) (fun k => rfl)
  constructor
  · unfold dedup_entities
    rw [List.map_map]
    have hmaps : (l.foldl upsertBest []).map (spanKey ∘ Prod.snd) =
        (l.foldl upsertBest []).map Prod.fst :=
      List.map_congr_left fun p hp => (h2 p hp).symm
    rw [hmaps]
    exact h1
  · intro k
    unfold dedup_entities
    rw [find_on_values h2]
    simpa using h3 k

/-! ## Claim C5 -/

/-- C5, counterexample: the spec's escalation condition, evaluated over the
*pre-filter* fast-pass candidates, fires on this request (the single fast
span has confidence 0.3, so the pre-filter mean 0.3 is below the 0.65
average threshold, and both models are loaded) — yet the code answers with
the fast model: the span was already dropped by the `min_confidence = 0.5`
filter inside `process_with_model`, so the code sees an empty candidate set
(mean 1.0) and does not escalate. -/
theorem c5_counterexample :
    specEscalationCondition envC5 reqC5 = true ∧
    ("en_core_web_trf" ∈ availableModels envC5) ∧
    modelUsedOf (extract_entities envC5 reqC5) = some "en_core_web_sm" := by
  refine ⟨by decide, by decide, by decide⟩

/-- C5, amended: for an `auto` request with the fast engine loaded, the
accurate engine is run instead of the fast result exactly when at least one
of the three conditions holds — but each is evaluated against the fast
pass's candidates *after* the per-candidate `min_confidence` and label
filters (pre-dedup): text length at or above the threshold, filtered mean
confidence below the average threshold (empty filtered set counting as mean
1.0), or some filtered candidate below the per-span threshold.  If the
accurate engine is not loaded, the fast-pass result stands unchanged. -/
theorem c5_escalation_post_filter (env : Env) (req : NERRequest)
    (hauto : lowerStr (normalizeModel req.model) = "auto")
    (hsm : "en_core_web_sm" ∈ availableModels env) :
    (("en_core_web_trf" ∈ availableModels env) →
       modelUsedOf (extract_entities env req) =
         some (if escalationCond env req then "en_core_web_trf" else "en_core_web_sm") ∧
       (escalationCond env req = true ↔
         (env.trfMinChars ≤ req.text.length ∨
          meanConf (process_with_model env req "en_core_web_sm") < env.trfAvgConf ∨
          ∃ e ∈ process_with_model env req "en_core_web_sm",
            e.confidence < env.trfSpanConf))) ∧
    (("en_core_web_trf" ∉ availableModels env) →
       extract_entities env req =
         .ok (mkNERResponse req (process_with_model env req "en_core_web_sm")
               "en_core_web_sm")) := by
  constructor
  · intro htrf
    constructor
    · unfold extract_entities
      dsimp only
      rw [if_neg (by intro hc; exact hc.1 hauto), if_pos hauto, if_pos hsm]
      by_cases hesc : escalationCond env req
      · rw [if_pos hesc, if_pos hesc, if_pos htrf, if_pos htrf]
        rfl
      · rw [if_neg hesc, if_neg (by simpa using hesc)]
        rfl
    · unfold escalationCond
      dsimp only
      simp only [Bool.and_eq_true, Bool.or_eq_true, decide_eq_true_eq, List.any_eq_true]
      constructor
      · rintro ⟨-, h⟩
        rcases h with (h | h) | h
        · exact Or.inl h
        · exact Or.inr (Or.inl h)
        · exact Or.inr (Or.inr h)
      · intro h
        refine ⟨htrf, ?_⟩
        rcases h with h | h | h
        · exact Or.inl (Or.inl h)
        · exact Or.inl (Or.inr h)
        · exact Or.inr h
  · intro htrf
    have hesc : escalationCond env req = false := by
      unfold escalationCond
      dsimp only
      simp [htrf]
    unfold extract_entities
    dsimp only
    rw [if_neg (by intro hc; exact hc.1 hauto), if_pos hauto, if_pos hsm, if_neg (by simp [hesc])]

/-- C5, witness for `c5_escalation_post_filter` at the concrete
environment of the counterexample. -/
theorem c5_escalation_post_filter_witness :
    (("en_core_web_trf" ∈ availableModels envC5) →
       modelUsedOf (extract_entities envC5 reqC5) =
         some (if escalationCond envC5 reqC5 then "en_core_web_trf" else "en_core_web_sm") ∧
       (escalationCond envC5 reqC5 = true ↔
         (envC5.trfMinChars ≤ reqC5.text.length ∨
          meanConf (process_with_model envC5 reqC5 "en_core_web_sm") < envC5.trfAvgConf ∨
          ∃ e ∈ process_with_model envC5 reqC5 "en_core_web_sm",
            e.confidence < envC5.trfSpanConf))) ∧
    (("en_core_web_trf" ∉ availableModels envC5) →
       extract_entities envC5 reqC5 =
         .ok (mkNERResponse reqC5 (process_with_model envC5 reqC5 "en_core_web_sm")
               "en_core_web_sm")) :=
  c5_escalation_post_filter envC5 reqC5 (by decide) (by decide)

/-! ## Claim C6 -/

/-- C6, counterexample: in a batch of three texts where the middle one
triggers an engine failure, the whole batch-level call fails with the
processing error (HTTP 500) — no per-item isolation, the other two texts
get no result slots at all. -/
theorem c6_counterexample :
    ("bad" ∈ reqC6.texts) ∧ envC6.pipeOutcome "bad" = .error () ∧
    envC6.pipeOutcome "aaaa" = .ok [⟨"EntityName", "ORG", 0, 10⟩] ∧
    extract_entities_batch envC6 reqC6 = .error .processingError := by
  refine ⟨by decide, by decide, by decide, by decide⟩

/-- C6, amended: an engine failure on *any* text of the batch makes the
whole batch request fail with a processing error (HTTP 500); only when the
engine succeeds on every text does the call return, with one result slot
per text. -/
theorem c6_batch_fails_as_a_whole (env : BatchEnv) (req : BatchNERRequest)
    (hmodel : req.model ∈ env.modelNames ∧ env.loaded req.model = true) :
    ((∃ t ∈ req.texts, env.pipeOutcome t = .error ()) →
        extract_entities_batch env req = .error .processingError) ∧
    ((∀ t ∈ req.texts, ∃ ents, env.pipeOutcome t = .ok ents) →
        ∃ r, extract_entities_batch env req = .ok r ∧
          r.results.length = req.texts.length ∧ r.batch_size = req.texts.length) := by
  constructor
  · intro hfail
    obtain ⟨t, ht, he⟩ := hfail
    obtain ⟨e, hme⟩ := mapExcept_error_of_mem (f := env.pipeOutcome) ⟨t, ht, (), he⟩
    unfold extract_entities_batch
    rw [if_neg (fun hc => hc hmodel), hme]
  · intro hok
    obtain ⟨docs, hdocs, hlen⟩ := mapExcept_ok_of_all hok
    have hbe : extract_entities_batch env req =
        .ok { results := (docs.zip req.texts).map fun p => batchItem req p.1 p.2
              batch_size := req.texts.length } := by
      unfold extract_entities_batch
      rw [if_neg (fun hc => hc hmodel), hdocs]
    exact ⟨_, hbe, by simp [List.length_zip, hlen], rfl⟩

/-- C6, witness for `c6_batch_fails_as_a_whole` at the concrete failing
batch. -/
theorem c6_batch_fails_as_a_whole_witness :
    ((∃ t ∈ reqC6.texts, envC6.pipeOutcome t = .error ()) →
        extract_entities_batch envC6 reqC6 = .error .processingError) ∧
    ((∀ t ∈ reqC6.texts, ∃ ents, envC6.pipeOutcome t = .ok ents) →
        ∃ r, extract_entities_batch envC6 reqC6 = .ok r ∧
          r.results.length = reqC6.texts.length ∧ r.batch_size = reqC6.texts.length) :=
  c6_batch_fails_as_a_whole envC6 reqC6 ⟨by decide, by decide⟩

/-! ## Claim C7 -/

/-- C7: the pattern matcher's emitted span.  On `"I love Apple pie"` with
the BRAND pattern matching the token window `[2, 3)` (just `"Apple"`,
characters 7 to 12), the code emits `start = 7` (the window's first token's
start, as the claim says) but `end = 13` — `doc[end].idx`, the *start*
offset of the token `"pie"` that follows the window — instead of 12, the
offset at which the window's last token ends.  The label and the
§4.1-style confidence are as claimed. -/
theorem c7_end_offset_divergence :
    process_text docX [mX] =
      .ok [{ text := "Apple", label := "BRAND", start := 7, stop := 13
             confidence := 1, source := "custom_ruler" }] ∧
    docX.toks[2]? = some ⟨"Apple", 7⟩ ∧
    docX.toks[3]? = some ⟨"pie", 13⟩ ∧
    7 + "Apple".length = 12 ∧ (13 : Nat) ≠ 12 := by
  refine ⟨by decide, by decide, by decide, by decide, by decide⟩

/-! ## Claim C8 -/

/-- C8, counterexample: a batch request whose confidence threshold 1.5 lies
outside `[0, 1]` (and whose text list would also admit empty texts) passes
validation and is fully processed — only single-text requests carry the
`[0, 1]` bound. -/
theorem c8_counterexample :
    validBatchNERRequest reqC8 ∧ (1 : Q) < reqC8.min_confidence ∧
    batchEndpoint envC8 reqC8 =
      .ok { results := [{ entities := [], model_used := "m", text_length := 2
                          entity_count := 0 }]
            batch_size := 1 } := by
  refine ⟨by decide, by decide, by decide⟩

/-- C8, amended: a *single-text* request is rejected as invalid input
before any processing exactly when its text is empty or longer than 100000
characters or its confidence threshold lies outside `[0, 1]`; a *batch*
request is rejected as invalid input exactly when it contains more than 100
texts — the batch model validates neither the individual texts' lengths nor
the confidence threshold. -/
theorem c8_validation_scope :
    (∀ (env : Env) (req : NERRequest),
        nerEndpoint env req = .error .invalidInput ↔ ¬validNERRequest req) ∧
    (∀ (env : BatchEnv) (req : BatchNERRequest),
        batchEndpoint env req = .error .invalidInput ↔ 100 < req.texts.length) := by
  constructor
  · intro env req
    unfold nerEndpoint
    by_cases h : validNERRequest req
    · simp [h, extract_entities_ne_invalidInput env req]
    · simp [h]
  · intro env req
    unfold batchEndpoint
    by_cases h : validBatchNERRequest req
    · have : ¬100 < req.texts.length := by
        unfold validBatchNERRequest at h
        omega
      simp [h, extract_entities_batch_ne_invalidInput env req, this]
    · have : 100 < req.texts.length := by
        unfold validBatchNERRequest at h
        omega
      simp [h, this]

/-! ## Claim C9 -/

/-- C9, counterexample: with one loaded engine knowing only the label `ORG`
and the custom ruler (whose static patterns carry the labels BRAND and
PRODUCT) initialised, `/labels` returns just `["ORG"]` — the statically
known pattern labels are not included. -/
theorem c9_counterexample :
    get_entity_labels envC9 = ["ORG"] ∧
    envC9.rulers "en_core_web_sm" ≠ none ∧
    "BRAND" ∉ get_entity_labels envC9 ∧ "PRODUCT" ∉ get_entity_labels envC9 := by
  refine ⟨by decide, by decide, by decide, by decide⟩

/-- C9, amended: `ListLabels` returns exactly the union of the entity
labels of the loaded engines (as a sorted, deduplicated list) — the pattern
matcher's labels contribute nothing. -/
theorem c9_labels_are_engine_union (env : Env) (s : String) :
    s ∈ get_entity_labels env ↔ ∃ m ∈ availableModels env, s ∈ env.engineLabels m := by
  unfold get_entity_labels
  rw [mem_sortedStr, List.mem_dedup, List.mem_flatMap]

/-! ## Claim C10 -/

/-- C10: when some configured pattern matches a token window ending at the
text's final token (exclusive end = number of tokens), `process_text`
raises `IndexError` reading `doc[end]`; the orchestrator's `try/except`
around the custom-ruler block swallows it, so the request still succeeds
with only the engine-derived entities. -/
theorem c10_boundary_index_error (env : Env) (req : NERRequest) (name : String)
    (d : Doc) (ms : List RulerMatch)
    (hr : env.rulers name = some (d, ms))
    (hm : ∃ mt ∈ ms, mt.mend = d.toks.length)
    (hn : normalizeModel req.model = name)
    (hna : lowerStr name ≠ "auto")
    (hav : name ∈ availableModels env) :
    process_text d ms = .error () ∧
    extract_entities env req = .ok (mkNERResponse req (engineCands env req name) name) := by
  have herr : process_text d ms = .error () := by
    obtain ⟨mt, hmt, hend⟩ := hm
    have hfail : processMatch d mt = .error () := by
      unfold processMatch
      have : d.toks[mt.mend]? = none := by
        rw [hend]
        exact List.getElem?_eq_none (le_refl _)
      rw [this]
      cases d.toks[mt.mstart]? <;> rfl
    obtain ⟨e, he⟩ := mapExcept_error_of_mem (f := processMatch d) ⟨mt, hmt, (), hfail⟩
    cases e
    exact he
  refine ⟨herr, ?_⟩
  have hpresent : modelPresent env name = true := by
    unfold modelPresent
    unfold availableModels at hav
    obtain ⟨hmem, hload⟩ := List.mem_filter.mp hav
    simp [hmem, hload]
  have hruler : rulerCands env req name = [] := by
    unfold rulerCands
    simp only [hr, herr]
  unfold extract_entities
  dsimp only
  rw [hn, if_neg (by intro hc; exact absurd hav hc.2), if_neg hna]
  unfold process_with_model
  rw [if_pos hpresent, hruler, List.append_nil]

/-- C10, witness for `c10_boundary_index_error`: the concrete pattern match
on `"I love Apple"` ending at the final token. -/
theorem c10_boundary_index_error_witness :
    process_text docY [mY] = .error () ∧
    extract_entities envC10 reqC10 =
      .ok (mkNERResponse reqC10 (engineCands envC10 reqC10 "en_core_web_sm")
            "en_core_web_sm") :=
  c10_boundary_index_error envC10 reqC10 "en_core_web_sm" docY [mY]
    (by decide) (by decide) (by decide) (by decide) (by decide)

end NERService
